import Mathlib

/-!
AVL-tree backed map (`Library/map.hpp`).

A shallow embedding of the `Node`, `AVLTree` and `Map` class templates and a
verification of their contracts.

Modelling conventions.

* A `Node_ptr` (a `std::shared_ptr<Node>`) is a value of `Node K V`; the empty pointer is
  `Node.null`.  No node is ever shared between two parents, so in-place mutation through
  the pointer is rendered as rebuilding the node.
* Every function that dereferences a pointer returns `Option`: `none` stands for the
  dereference of an absent node (undefined behaviour in the source).
* `Key` is a linearly ordered type (`==`, `<`, `>` are the order's), `Value` is an
  inhabited type whose `default` is `Value()`.
* `height` is a `size_t`, kept as a `Nat`.  `getBFactor` keeps the source's unsigned
  subtraction modulo `2 ^ 64` and the narrowing to `int8_t`.  `fixHeight` computes
  `fmax(..) + 1` through `double`; this is exact for heights below `2 ^ 53`, which covers
  every tree that fits in memory, and is rendered as `max .. + 1` on `Nat`.  Where a
  statement lets the cached heights be arbitrary and names the height that is stored, it
  assumes the cached heights read are below that bound.
-/

set_option autoImplicit false

/-- A `Node_ptr`: either the empty pointer or a node with the fields of `class Node`. -/
inductive Node (K V : Type) where
  | null : Node K V
  | mk (key : K) (value : V) (height : Nat) (left right : Node K V) : Node K V
  deriving DecidableEq

namespace Node

variable {K V : Type}

/-- The static `Node::getNodeHeight`: `node ? node->height : 0`. -/
def getNodeHeight : Node K V → Nat
  | null => 0
  | mk _ _ h _ _ => h

/-- The constructor `Node(key, value)`: height `1`, both children empty. -/
def ctor (key : K) (value : V) : Node K V :=
  mk key value 1 null null

/-- The member `Node::fixHeight`, called through a pointer:
`height = fmax(h(left), h(right)) + 1`. The source evaluates the right-hand side in
`double` and stores it in a `size_t`; the rendering is the exact `max .. + 1`, which is
what the source stores whenever both cached child heights are below `2 ^ 53`. Statements
that let cached heights be arbitrary carry that bound wherever they name the stored
height. -/
def fixHeight : Node K V → Option (Node K V)
  | null => none
  | mk k v _ l r => some (mk k v (max (getNodeHeight l) (getNodeHeight r) + 1) l r)

/-- Narrowing conversion of an integer to `int8_t` (two's complement wrap-around). -/
def toInt8 (x : Int) : Int :=
  (x + 128) % 256 - 128

/-- Subtraction of two `size_t` values: the result is taken modulo `2 ^ 64`. -/
def subSizeT (a b : Nat) : Int :=
  ((a : Int) - (b : Int)) % 18446744073709551616

/-- The member `Node::getBFactor()`, called through a pointer:
`(int8_t)(getNodeHeight(right) - getNodeHeight(left))`. -/
def getBFactor : Node K V → Option Int
  | null => none
  | mk _ _ _ l r => some (toInt8 (subSizeT (getNodeHeight r) (getNodeHeight l)))

/-- The member `Node::getBFactor(bool forceHeightFix)`: the node after the optional `fixHeight`, and
the balance factor. -/
def getBFactorForce (node : Node K V) (forceHeightFix : Bool) : Option (Node K V × Int) := do
  let node ← if forceHeightFix then fixHeight node else pure node
  let b ← getBFactor node
  pure (node, b)

end Node

namespace AVLTree

open Node

variable {K V : Type}

/-- The function `AVLTree::rotateLeft`. -/
def rotateLeft : Node K V → Option (Node K V)
  | null => none
  | mk k v h l q =>
    match q with
    | null => none
    | mk qk qv qh ql qr => do
      let node ← fixHeight (mk k v h l ql)
      fixHeight (mk qk qv qh node qr)

/-- The function `AVLTree::rotateRight`. -/
def rotateRight : Node K V → Option (Node K V)
  | null => none
  | mk k v h q r =>
    match q with
    | null => none
    | mk qk qv qh ql qr => do
      let node ← fixHeight (mk k v h qr r)
      fixHeight (mk qk qv qh ql node)

/-- The function `AVLTree::balance`. -/
def balance (node : Node K V) : Option (Node K V) := do
  let node ← fixHeight node
  let BFactor ← getBFactor node
  match node with
  | null => none
  | mk k v h l r =>
    if BFactor = 2 then do
      let rb ← getBFactor r
      let r ← if rb < 0 then rotateRight r else pure r
      rotateLeft (mk k v h l r)
    else if BFactor = -2 then do
      let lb ← getBFactor l
      let l ← if lb > 0 then rotateLeft l else pure l
      rotateRight (mk k v h l r)
    else
      pure (mk k v h l r)

/-- The function `AVLTree::findMin`: the leftmost node of a present subtree. -/
def findMin : Node K V → Option (Node K V)
  | null => none
  | mk k v h l r =>
    match l with
    | null => some (mk k v h l r)
    | mk _ _ _ _ _ => findMin l

/-- The function `AVLTree::removeMin`: the subtree without its leftmost node. -/
def removeMin : Node K V → Option (Node K V)
  | null => none
  | mk k v h l r =>
    match l with
    | null => some r
    | mk _ _ _ _ _ => do
      let l ← removeMin l
      balance (mk k v h l r)

variable [LinearOrder K]

/-- The function `AVLTree::appendTo`. -/
def appendTo : Node K V → K → V → Option (Node K V)
  | null, key, value => some (ctor key value)
  | mk k v h l r, key, value =>
    if k = key then
      some (mk k value h l r)
    else if key < k then do
      let l ← appendTo l key value
      balance (mk k v h l r)
    else do
      let r ← appendTo r key value
      balance (mk k v h l r)

/-- The function `AVLTree::remove(Node_ptr, Key)`. -/
def remove : Node K V → K → Option (Node K V)
  | null, _ => some null
  | mk k v h l r, key =>
    if key < k then do
      let l ← remove l key
      balance (mk k v h l r)
    else if key > k then do
      let r ← remove r key
      balance (mk k v h l r)
    else
      match r with
      | null => some l
      | mk _ _ _ _ _ => do
        let min ← findMin r
        let r ← removeMin r
        match min with
        | null => none
        | mk mkey mvalue mheight _ _ => balance (mk mkey mvalue mheight l r)

/-- The function `AVLTree::find(Node_ptr, Key)`. -/
def find [Inhabited V] : Node K V → K → V
  | null, _ => default
  | mk k v _ l r, key =>
    if k = key then v
    else if key < k then find l key
    else find r key

/-- The helper `inFrame`. -/
def inFrame (num : Int) : Bool :=
  decide (num ≥ -1) && decide (num ≤ 1)

/-- The function `AVLTree::isBalanced(Node_ptr)`: the verdict together with the tree as the traversal
leaves it (`getBFactor(true)` rewrites the cached height of the nodes it reaches; `&&`
evaluates its right operand only when the left one is true). -/
def isBalanced : Node K V → Option (Bool × Node K V)
  | null => some (true, null)
  | mk k v h l r => do
    let (bl, l) ← isBalanced l
    if !bl then pure (false, mk k v h l r) else
    let (br, r) ← isBalanced r
    if !br then pure (false, mk k v h l r) else
    let (node, b) ← getBFactorForce (mk k v h l r) true
    pure (inFrame b, node)

end AVLTree

/-- The class `AVLTree`: one root pointer. -/
structure AVLTree (K V : Type) where
  root : Node K V

/-- The class `Map`: one tree. -/
structure Map (K V : Type) where
  tree : AVLTree K V

namespace AVLTree

variable {K V : Type} [LinearOrder K]

/-- The function `AVLTree::insert(Key, Value)`. -/
def insert (t : AVLTree K V) (key : K) (value : V) : Option (AVLTree K V) :=
  match t.root with
  | Node.null => some ⟨Node.ctor key value⟩
  | Node.mk k v h l r => do
    let root ← appendTo (Node.mk k v h l r) key value
    pure ⟨root⟩

/-- The public overload `AVLTree::remove(Key)`. -/
def removeKey (t : AVLTree K V) (key : K) : Option (AVLTree K V) := do
  let root ← remove t.root key
  pure ⟨root⟩

/-- The public overload `AVLTree::find(Key)`. -/
def findKey [Inhabited V] (t : AVLTree K V) (key : K) : V :=
  find t.root key

/-- The public overload `AVLTree::isBalanced()`. -/
def isBalancedRoot (t : AVLTree K V) : Option (Bool × AVLTree K V) := do
  let (b, root) ← isBalanced t.root
  pure (b, ⟨root⟩)

end AVLTree

namespace Map

variable {K V : Type} [LinearOrder K]

/-- A freshly constructed `Map`: the root pointer is empty. -/
def empty : Map K V := ⟨⟨Node.null⟩⟩

/-- The member `Map::insert`. -/
def insert (m : Map K V) (key : K) (value : V) : Option (Map K V) := do
  let t ← m.tree.insert key value
  pure ⟨t⟩

/-- The member `Map::erase`. -/
def erase (m : Map K V) (key : K) : Option (Map K V) := do
  let t ← m.tree.removeKey key
  pure ⟨t⟩

/-- The member `Map::find`. -/
def find [Inhabited V] (m : Map K V) (key : K) : V :=
  m.tree.findKey key

/-- The member `Map::isMyTreeBalanced`. -/
def isMyTreeBalanced (m : Map K V) : Option (Bool × Map K V) := do
  let (b, t) ← m.tree.isBalancedRoot
  pure (b, ⟨t⟩)

end Map

/-- A call of the public interface that changes the map. -/
inductive Op (K V : Type) where
  | insert (key : K) (value : V) : Op K V
  | erase (key : K) : Op K V
  deriving DecidableEq

namespace Map

variable {K V : Type} [LinearOrder K]

/-- One call applied to a map. -/
def step (m : Map K V) : Op K V → Option (Map K V)
  | Op.insert k v => m.insert k v
  | Op.erase k => m.erase k

/-- A sequence of calls applied, in order, to a map. -/
def runFrom : Map K V → List (Op K V) → Option (Map K V)
  | m, [] => some m
  | m, op :: ops => do
    let m ← step m op
    runFrom m ops

/-- A sequence of calls applied to the initially empty map. -/
def run (ops : List (Op K V)) : Option (Map K V) :=
  runFrom empty ops

end Map


/-! ## Specification-level notions -/

namespace Node

variable {K V : Type}

/-- The in-order sequence of `(key, value)` pairs. -/
def toList : Node K V → List (K × V)
  | null => []
  | mk k v _ l r => toList l ++ (k, v) :: toList r

/-- The in-order sequence of keys. -/
def keys (t : Node K V) : List K :=
  t.toList.map Prod.fst

/-- The number of nodes. -/
def size : Node K V → Nat
  | null => 0
  | mk _ _ _ l r => size l + size r + 1

/-- The true height of a subtree, computed from its shape (cached heights are ignored). -/
def trueHeight : Node K V → Nat
  | null => 0
  | mk _ _ _ l r => max (trueHeight l) (trueHeight r) + 1

/-- Height correctness: every cached height is `1 + max` of the children's cached
heights, an absent child counting `0`. -/
def HeightOk : Node K V → Prop
  | null => True
  | mk _ _ h l r =>
    HeightOk l ∧ HeightOk r ∧ h = 1 + max (getNodeHeight l) (getNodeHeight r)

/-- AVL balance: at every node the true heights of the two subtrees differ by at most
one, i.e. `height(right) - height(left)` is `-1`, `0` or `1`. -/
def Balanced : Node K V → Prop
  | null => True
  | mk _ _ _ l r =>
    Balanced l ∧ Balanced r ∧
      ((trueHeight r : Int) - (trueHeight l : Int) = -1 ∨
       (trueHeight r : Int) - (trueHeight l : Int) = 0 ∨
       (trueHeight r : Int) - (trueHeight l : Int) = 1)

/-- BST ordering: at every node, the keys of the left subtree are smaller than the
node's key and the keys of the right subtree are greater. -/
def Ordered [LT K] : Node K V → Prop
  | null => True
  | mk k _ _ l r =>
    Ordered l ∧ Ordered r ∧ (∀ x ∈ keys l, x < k) ∧ (∀ x ∈ keys r, k < x)

/-- Every node's balance factor, as `getBFactor` computes it from the cached heights, is
`-1`, `0` or `1`. -/
def FactorsInFrame : Node K V → Prop
  | null => True
  | mk k v h l r =>
    FactorsInFrame l ∧ FactorsInFrame r ∧
      (getBFactor (mk k v h l r) = some (-1) ∨ getBFactor (mk k v h l r) = some 0 ∨
        getBFactor (mk k v h l r) = some 1)

/-- Every cached height equals the true height of the subtree below it. -/
def HeightsExact : Node K V → Prop
  | null => True
  | mk k v h l r => HeightsExact l ∧ HeightsExact r ∧ h = trueHeight (mk k v h l r)

/-- The three invariants of the data model together. -/
def Invariants [LT K] (t : Node K V) : Prop :=
  Ordered t ∧ Balanced t ∧ HeightOk t

/-- Working form of "balanced with correct heights", phrased on cached heights. -/
def Avl : Node K V → Prop
  | null => True
  | mk _ _ h l r =>
    Avl l ∧ Avl r ∧ h = max (getNodeHeight l) (getNodeHeight r) + 1 ∧
      getNodeHeight l ≤ getNodeHeight r + 1 ∧ getNodeHeight r ≤ getNodeHeight l + 1

end Node

/-! ## Sorted association lists, the abstract content of a tree -/

namespace Assoc

variable {K V : Type} [LinearOrder K]

/-- Set `key` to `value` in an association list kept in increasing key order. -/
def insertSorted (key : K) (value : V) : List (K × V) → List (K × V)
  | [] => [(key, value)]
  | (a, b) :: xs =>
    if key < a then (key, value) :: (a, b) :: xs
    else if key = a then (key, value) :: xs
    else (a, b) :: insertSorted key value xs

/-- Delete every binding of `key` from an association list. -/
def eraseKey (key : K) (xs : List (K × V)) : List (K × V) :=
  xs.filter (fun p => decide (p.1 ≠ key))

end Assoc

namespace AVLTree

open Node

variable {K V : Type}

/-- What `balance` guarantees for a node whose subtrees are AVL and whose heights differ
by at most two. -/
def BalancePost (k : K) (v : V) (l r t : Node K V) : Prop :=
  Avl t ∧ toList t = toList l ++ (k, v) :: toList r ∧
    (getNodeHeight t = max (getNodeHeight l) (getNodeHeight r) + 1 ∨
      (getNodeHeight t = max (getNodeHeight l) (getNodeHeight r) ∧
        (getNodeHeight l = getNodeHeight r + 2 ∨ getNodeHeight r = getNodeHeight l + 2))) ∧
    (getNodeHeight l ≤ getNodeHeight r + 1 → getNodeHeight r ≤ getNodeHeight l + 1 →
      t = Node.mk k v (max (getNodeHeight l) (getNodeHeight r) + 1) l r)

end AVLTree

/-! ## Notions for the behaviour contracts -/

namespace Node

variable {K V : Type}

/-- The tree with the value of every node whose key is `key` replaced by `value`; shape,
keys and cached heights are kept. -/
def replaceValue [DecidableEq K] (key : K) (value : V) : Node K V → Node K V
  | null => null
  | mk k v h l r =>
    mk k (if k = key then value else v) h (replaceValue key value l) (replaceValue key value r)

end Node

namespace Node

variable {K V : Type}

/-- The tree with every cached height reset to `0`: its shape, keys and values. -/
def eraseHeights : Node K V → Node K V
  | null => null
  | mk k v _ l r => mk k v 0 (eraseHeights l) (eraseHeights r)

end Node

/-! ## The reference finite map -/

namespace RefMap

variable {K V : Type} [DecidableEq K]

/-- The empty reference map: no key is bound. -/
def empty : K → Option V :=
  fun _ => none

/-- The reference `insert`: set `k` to `v`. -/
def set (f : K → Option V) (k : K) (v : V) : K → Option V :=
  fun q => if q = k then some v else f q

/-- The reference `erase`: delete `k`. -/
def delete (f : K → Option V) (k : K) : K → Option V :=
  fun q => if q = k then none else f q

/-- One call applied to the reference map. -/
def step (f : K → Option V) : Op K V → (K → Option V)
  | Op.insert k v => set f k v
  | Op.erase k => delete f k

/-- A sequence of calls applied, in order, to a reference map. -/
def runFrom (f : K → Option V) (ops : List (Op K V)) : K → Option V :=
  ops.foldl step f

/-- A sequence of calls applied to the empty reference map. -/
def run (ops : List (Op K V)) : K → Option V :=
  runFrom empty ops

/-- The reference lookup: the bound value, or the default value when the key is unbound. -/
def lookup [Inhabited V] (f : K → Option V) (q : K) : V :=
  (f q).getD default

end RefMap

/-! ## The calls of `balance` made by an operation -/

namespace AVLTree

open Node

variable {K V : Type}

/-- The function `AVLTree::removeMin`, also recording the argument of every call of
`balance` it makes, in the order in which the calls are made. -/
def removeMinLog : Node K V → Option (Node K V × List (Node K V))
  | null => none
  | Node.mk k v h l r =>
    match l with
    | null => some (r, [])
    | Node.mk _ _ _ _ _ => do
      let (l, calls) ← removeMinLog l
      let t ← balance (Node.mk k v h l r)
      pure (t, calls ++ [Node.mk k v h l r])

variable [LinearOrder K]

/-- The function `AVLTree::appendTo`, also recording the argument of every call of
`balance` it makes, in the order in which the calls are made. -/
def appendToLog : Node K V → K → V → Option (Node K V × List (Node K V))
  | null, key, value => some (ctor key value, [])
  | Node.mk k v h l r, key, value =>
    if k = key then
      some (Node.mk k value h l r, [])
    else if key < k then do
      let (l, calls) ← appendToLog l key value
      let t ← balance (Node.mk k v h l r)
      pure (t, calls ++ [Node.mk k v h l r])
    else do
      let (r, calls) ← appendToLog r key value
      let t ← balance (Node.mk k v h l r)
      pure (t, calls ++ [Node.mk k v h l r])

/-- The function `AVLTree::remove(Node_ptr, Key)`, also recording the argument of every
call of `balance` made by it and by `removeMin`, in the order in which the calls are
made. -/
def removeLog : Node K V → K → Option (Node K V × List (Node K V))
  | null, _ => some (null, [])
  | Node.mk k v h l r, key =>
    if key < k then do
      let (l, calls) ← removeLog l key
      let t ← balance (Node.mk k v h l r)
      pure (t, calls ++ [Node.mk k v h l r])
    else if key > k then do
      let (r, calls) ← removeLog r key
      let t ← balance (Node.mk k v h l r)
      pure (t, calls ++ [Node.mk k v h l r])
    else
      match r with
      | null => some (l, [])
      | Node.mk _ _ _ _ _ => do
        let min ← findMin r
        let (r, calls) ← removeMinLog r
        match min with
        | null => none
        | Node.mk mkey mvalue mheight _ _ => do
          let t ← balance (Node.mk mkey mvalue mheight l r)
          pure (t, calls ++ [Node.mk mkey mvalue mheight l r])

/-- A well-formed argument of `balance`: the node is present, its
two subtrees satisfy the three invariants, and the balance factor `balance` computes after
`fixHeight` is the true difference of the cached child heights and lies in `-2 .. 2`. -/
def BalanceArg : Node K V → Prop
  | null => False
  | Node.mk k v h l r =>
    Invariants l ∧ Invariants r ∧
      ∃ b : Int, (fixHeight (Node.mk k v h l r)).bind getBFactor = some b ∧
        b = (getNodeHeight r : Int) - (getNodeHeight l : Int) ∧ -2 ≤ b ∧ b ≤ 2

end AVLTree

/-! ## Auxiliary lemmas -/

namespace Node

variable {K V : Type}

@[simp]
theorem getNodeHeight_null : getNodeHeight (null : Node K V) = 0 := rfl

@[simp]
theorem getNodeHeight_mk (k : K) (v : V) (h : Nat) (l r : Node K V) :
    getNodeHeight (mk k v h l r) = h := rfl

@[simp]
theorem fixHeight_mk (k : K) (v : V) (h : Nat) (l r : Node K V) :
    fixHeight (mk k v h l r) = some (mk k v (max (getNodeHeight l) (getNodeHeight r) + 1) l r) :=
  rfl

@[simp]
theorem getBFactor_mk (k : K) (v : V) (h : Nat) (l r : Node K V) :
    getBFactor (mk k v h l r) = some (toInt8 (subSizeT (getNodeHeight r) (getNodeHeight l))) :=
  rfl

@[simp]
theorem toList_null : toList (null : Node K V) = [] := rfl

@[simp]
theorem toList_mk (k : K) (v : V) (h : Nat) (l r : Node K V) :
    toList (mk k v h l r) = toList l ++ (k, v) :: toList r := rfl

theorem toInt8_subSizeT (a b : Nat) (h1 : a ≤ b + 127) (h2 : b ≤ a + 128) :
    toInt8 (subSizeT a b) = (a : Int) - (b : Int) := by
  unfold toInt8 subSizeT
  omega

theorem heightOk_trueHeight : ∀ t : Node K V, HeightOk t → getNodeHeight t = trueHeight t
  | null, _ => rfl
  | mk _ _ h l r, ⟨hl, hr, hh⟩ => by
    have e1 := heightOk_trueHeight l hl
    have e2 := heightOk_trueHeight r hr
    simp only [getNodeHeight, trueHeight] at *
    omega

theorem avl_iff : ∀ t : Node K V, Avl t ↔ (Balanced t ∧ HeightOk t)
  | null => by simp [Avl, Balanced, HeightOk]
  | mk _ _ h l r => by
    simp only [Avl, Balanced, HeightOk, avl_iff l, avl_iff r]
    constructor
    · rintro ⟨⟨bl, hl⟩, ⟨br, hr⟩, hh, h1, h2⟩
      have e1 := heightOk_trueHeight l hl
      have e2 := heightOk_trueHeight r hr
      refine ⟨⟨bl, br, ?_⟩, hl, hr, ?_⟩ <;> omega
    · rintro ⟨⟨bl, br, hb⟩, hl, hr, hh⟩
      have e1 := heightOk_trueHeight l hl
      have e2 := heightOk_trueHeight r hr
      refine ⟨⟨bl, hl⟩, ⟨br, hr⟩, ?_, ?_, ?_⟩ <;> omega

@[simp]
theorem keys_null : keys (null : Node K V) = [] := rfl

@[simp]
theorem keys_mk (k : K) (v : V) (h : Nat) (l r : Node K V) :
    keys (mk k v h l r) = keys l ++ k :: keys r := by
  simp [keys]

theorem size_eq_length : ∀ t : Node K V, size t = (toList t).length
  | null => rfl
  | mk _ _ _ l r => by
    simp [size, size_eq_length l, size_eq_length r]
    omega

theorem ordered_iff_sorted [LinearOrder K] :
    ∀ t : Node K V, Ordered t ↔ (keys t).Pairwise (· < ·)
  | null => by simp [Ordered]
  | mk k _ _ l r => by
    simp only [Ordered, keys_mk, ordered_iff_sorted l, ordered_iff_sorted r,
      List.pairwise_append, List.pairwise_cons, List.mem_cons]
    constructor
    · rintro ⟨hl, hr, h1, h2⟩
      refine ⟨hl, ⟨h2, hr⟩, ?_⟩
      rintro a ha b (rfl | hb)
      · exact h1 a ha
      · exact lt_trans (h1 a ha) (h2 b hb)
    · rintro ⟨hl, ⟨h2, hr⟩, h3⟩
      exact ⟨hl, hr, fun a ha => h3 a ha k (Or.inl rfl), h2⟩

theorem avl_factorsInFrame : ∀ t : Node K V, Avl t → FactorsInFrame t
  | null, _ => trivial
  | mk k v h l r, ⟨al, ar, _, d1, d2⟩ => by
    refine ⟨avl_factorsInFrame l al, avl_factorsInFrame r ar, ?_⟩
    rw [getBFactor_mk, toInt8_subSizeT _ _ (by omega) (by omega)]
    simp only [Option.some.injEq]
    omega

theorem heightOk_heightsExact : ∀ t : Node K V, HeightOk t → HeightsExact t
  | null, _ => trivial
  | mk k v h l r, hh => by
    have e := heightOk_trueHeight _ hh
    obtain ⟨hl, hr, _⟩ := hh
    exact ⟨heightOk_heightsExact l hl, heightOk_heightsExact r hr, e⟩

theorem avl_fib : ∀ t : Node K V, Avl t → Nat.fib (getNodeHeight t + 2) ≤ size t + 1
  | null, _ => by simp [size]
  | mk k v h l r, ⟨al, ar, eh, d1, d2⟩ => by
    have il := avl_fib l al
    have ir := avl_fib r ar
    simp only [getNodeHeight_mk, size]
    subst eh
    rcases Nat.le_total (getNodeHeight l) (getNodeHeight r) with c | c
    · rw [max_eq_right c, Nat.fib_add_two]
      have m : Nat.fib (getNodeHeight r + 1) ≤ Nat.fib (getNodeHeight l + 2) :=
        Nat.fib_mono (by omega)
      have e : getNodeHeight r + 1 + 1 = getNodeHeight r + 2 := rfl
      rw [e]
      omega
    · rw [max_eq_left c, Nat.fib_add_two]
      have m : Nat.fib (getNodeHeight l + 1) ≤ Nat.fib (getNodeHeight r + 2) :=
        Nat.fib_mono (by omega)
      have e : getNodeHeight l + 1 + 1 = getNodeHeight l + 2 := rfl
      rw [e]
      omega

theorem two_pow_le_fib_sq : ∀ h : Nat, 2 ^ h ≤ Nat.fib (h + 2) ^ 2
  | 0 => by decide
  | 1 => by decide
  | h + 2 => by
    have ih := two_pow_le_fib_sq h
    have e : Nat.fib (h + 2 + 2) = Nat.fib (h + 2) + Nat.fib (h + 2 + 1) := Nat.fib_add_two
    have m : Nat.fib (h + 2) ≤ Nat.fib (h + 2 + 1) := Nat.fib_mono (by omega)
    have g : 2 * Nat.fib (h + 2) ≤ Nat.fib (h + 2 + 2) := by omega
    calc 2 ^ (h + 2) = 4 * 2 ^ h := by ring
      _ ≤ 4 * Nat.fib (h + 2) ^ 2 := by omega
      _ = (2 * Nat.fib (h + 2)) ^ 2 := by ring
      _ ≤ Nat.fib (h + 2 + 2) ^ 2 := Nat.pow_le_pow_left g 2

end Node

namespace Assoc

variable {K V : Type} [LinearOrder K]

theorem insertSorted_append_lt (key : K) (value : V) (a : K) (b : V) (hk : key < a) :
    ∀ (l r : List (K × V)),
      insertSorted key value (l ++ (a, b) :: r) = insertSorted key value l ++ (a, b) :: r
  | [], r => by simp [insertSorted, hk]
  | (c, d) :: l, r => by
    have ih := insertSorted_append_lt key value a b hk l r
    by_cases h1 : key < c
    · simp [insertSorted, h1]
    · by_cases h2 : key = c
      · simp [insertSorted, h2]
      · simp [insertSorted, h1, h2, ih]

theorem insertSorted_append_ge (key : K) (value : V) :
    ∀ (l r : List (K × V)), (∀ p ∈ l, p.1 < key) →
      insertSorted key value (l ++ r) = l ++ insertSorted key value r
  | [], r, _ => by simp
  | (c, d) :: l, r, hl => by
    have hc : c < key := hl (c, d) (by simp)
    have ih := insertSorted_append_ge key value l r (fun p hp => hl p (by simp [hp]))
    have h1 : ¬ key < c := not_lt.mpr hc.le
    have h2 : ¬ key = c := fun e => (ne_of_gt hc) e
    simp [insertSorted, h1, h2, ih]

theorem mem_insertSorted (key : K) (value : V) (p : K × V) :
    ∀ xs : List (K × V), p ∈ insertSorted key value xs → p = (key, value) ∨ p ∈ xs
  | [] => by simp [insertSorted]
  | (a, b) :: xs => by
    have ih := mem_insertSorted key value p xs
    by_cases h1 : key < a
    · simp [insertSorted, h1]
    · by_cases h2 : key = a
      · subst h2
        simp only [insertSorted, h1, if_false, if_true, List.mem_cons]
        rintro (h | h)
        · exact Or.inl h
        · exact Or.inr (Or.inr h)
      · simp only [insertSorted, h1, h2, if_false, List.mem_cons]
        rintro (h | h)
        · exact Or.inr (Or.inl h)
        · rcases ih h with h | h
          · exact Or.inl h
          · exact Or.inr (Or.inr h)

theorem self_mem_insertSorted (key : K) (value : V) :
    ∀ xs : List (K × V), (key, value) ∈ insertSorted key value xs
  | [] => by simp [insertSorted]
  | (a, b) :: xs => by
    have ih := self_mem_insertSorted key value xs
    by_cases h1 : key < a
    · simp [insertSorted, h1]
    · by_cases h2 : key = a
      · simp [insertSorted, h2]
      · simp [insertSorted, h1, h2, ih]

theorem insertSorted_sorted (key : K) (value : V) :
    ∀ xs : List (K × V), (xs.map Prod.fst).Pairwise (· < ·) →
      ((insertSorted key value xs).map Prod.fst).Pairwise (· < ·)
  | [], _ => by simp [insertSorted]
  | (a, b) :: xs, h => by
    have ih := insertSorted_sorted key value xs
    simp only [List.map_cons, List.pairwise_cons] at h
    obtain ⟨ha, hxs⟩ := h
    by_cases h1 : key < a
    · simp only [insertSorted, h1, if_true, List.map_cons, List.pairwise_cons, List.mem_cons]
      refine ⟨?_, ha, hxs⟩
      rintro x (rfl | hx)
      · exact h1
      · exact lt_trans h1 (ha x hx)
    · by_cases h2 : key = a
      · subst h2
        simp only [insertSorted, h1, if_false, if_true, List.map_cons, List.pairwise_cons]
        exact ⟨ha, hxs⟩
      · simp only [insertSorted, h1, h2, if_false, List.map_cons, List.pairwise_cons]
        refine ⟨?_, ih hxs⟩
        intro x hx
        obtain ⟨p, hp, rfl⟩ := List.mem_map.mp hx
        rcases mem_insertSorted key value p xs hp with h | h
        · rw [h]
          exact lt_of_le_of_ne (not_lt.mp h1) (fun e => h2 e.symm)
        · exact ha p.1 (List.mem_map_of_mem _ h)

theorem insertSorted_insertSorted (key : K) (v1 v2 : V) :
    ∀ xs : List (K × V),
      insertSorted key v2 (insertSorted key v1 xs) = insertSorted key v2 xs
  | [] => by simp [insertSorted]
  | (a, b) :: xs => by
    have ih := insertSorted_insertSorted key v1 v2 xs
    by_cases h1 : key < a
    · simp [insertSorted, h1]
    · by_cases h2 : key = a
      · simp [insertSorted, h2]
      · simp [insertSorted, h1, h2, ih]

theorem length_insertSorted (key : K) (v1 v2 : V) :
    ∀ xs : List (K × V),
      (insertSorted key v1 xs).length = (insertSorted key v2 xs).length
  | [] => by simp [insertSorted]
  | (a, b) :: xs => by
    have ih := length_insertSorted key v1 v2 xs
    by_cases h1 : key < a
    · simp [insertSorted, h1]
    · by_cases h2 : key = a
      · simp [insertSorted, h2]
      · simp [insertSorted, h1, h2, ih]

theorem length_insertSorted_le (key : K) (value : V) :
    ∀ xs : List (K × V), (insertSorted key value xs).length ≤ xs.length + 1
  | [] => by simp [insertSorted]
  | (a, b) :: xs => by
    have ih := length_insertSorted_le key value xs
    by_cases h1 : key < a
    · simp [insertSorted, h1]
    · by_cases h2 : key = a
      · simp [insertSorted, h2]
      · simp [insertSorted, h1, h2, ih]

theorem length_insertSorted_new (key : K) (value : V) :
    ∀ xs : List (K × V), key ∉ xs.map Prod.fst →
      (insertSorted key value xs).length = xs.length + 1
  | [], _ => by simp [insertSorted]
  | (a, b) :: xs, h => by
    simp only [List.map_cons, List.mem_cons, not_or] at h
    have ih := length_insertSorted_new key value xs h.2
    by_cases h1 : key < a
    · simp [insertSorted, h1]
    · simp [insertSorted, h1, h.1, ih]

theorem eraseKey_cons_ne (key : K) (p : K × V) (xs : List (K × V)) (h : p.1 ≠ key) :
    eraseKey key (p :: xs) = p :: eraseKey key xs := by
  simp [eraseKey, h]

theorem eraseKey_cons_eq (key : K) (v : V) (xs : List (K × V)) :
    eraseKey key ((key, v) :: xs) = eraseKey key xs := by
  simp [eraseKey]

theorem eraseKey_append (key : K) (l r : List (K × V)) :
    eraseKey key (l ++ r) = eraseKey key l ++ eraseKey key r := by
  simp [eraseKey]

theorem eraseKey_of_not_mem (key : K) (xs : List (K × V)) (h : key ∉ xs.map Prod.fst) :
    eraseKey key xs = xs := by
  unfold eraseKey
  rw [List.filter_eq_self]
  intro p hp
  have : p.1 ≠ key := fun e => h (e ▸ List.mem_map_of_mem _ hp)
  simpa using this

theorem not_mem_eraseKey (key : K) (xs : List (K × V)) :
    key ∉ (eraseKey key xs).map Prod.fst := by
  intro h
  obtain ⟨p, hp, e⟩ := List.mem_map.mp h
  have := (List.mem_filter.mp hp).2
  simp at this
  exact this e

theorem eraseKey_sorted (key : K) (xs : List (K × V))
    (h : (xs.map Prod.fst).Pairwise (· < ·)) :
    ((eraseKey key xs).map Prod.fst).Pairwise (· < ·) :=
  h.sublist ((List.filter_sublist xs).map Prod.fst)

end Assoc

namespace AVLTree

open Node

variable {K V : Type}

theorem balance_neutral (k : K) (v : V) (h : Nat) (l r : Node K V)
    (n2 : toInt8 (subSizeT (getNodeHeight r) (getNodeHeight l)) ≠ 2)
    (n4 : toInt8 (subSizeT (getNodeHeight r) (getNodeHeight l)) ≠ -2) :
    balance (.mk k v h l r) = some (.mk k v (max (getNodeHeight l) (getNodeHeight r) + 1) l r) := by
  simp [balance, n2, n4]

theorem balance_left_single (k : K) (v : V) (h : Nat) (l : Node K V) (rk : K) (rv : V)
    (rh : Nat) (rl rr : Node K V)
    (b2 : toInt8 (subSizeT rh (getNodeHeight l)) = 2)
    (b3 : ¬ toInt8 (subSizeT (getNodeHeight rr) (getNodeHeight rl)) < 0) :
    balance (.mk k v h l (.mk rk rv rh rl rr)) =
      some (.mk rk rv
        (max (max (getNodeHeight l) (getNodeHeight rl) + 1) (getNodeHeight rr) + 1)
        (.mk k v (max (getNodeHeight l) (getNodeHeight rl) + 1) l rl) rr) := by
  simp [balance, rotateLeft, b2, b3]

theorem balance_left_double (k : K) (v : V) (h : Nat) (l : Node K V) (rk : K) (rv : V)
    (rh : Nat) (rr : Node K V) (mk_ : K) (mv : V) (mh : Nat) (ml mr : Node K V)
    (b2 : toInt8 (subSizeT rh (getNodeHeight l)) = 2)
    (b3 : toInt8 (subSizeT (getNodeHeight rr) mh) < 0) :
    balance (.mk k v h l (.mk rk rv rh (.mk mk_ mv mh ml mr) rr)) =
      some (.mk mk_ mv
        (max (max (getNodeHeight l) (getNodeHeight ml) + 1)
          (max (getNodeHeight mr) (getNodeHeight rr) + 1) + 1)
        (.mk k v (max (getNodeHeight l) (getNodeHeight ml) + 1) l ml)
        (.mk rk rv (max (getNodeHeight mr) (getNodeHeight rr) + 1) mr rr)) := by
  simp [balance, rotateLeft, rotateRight, b2, b3]

theorem balance_right_single (k : K) (v : V) (h : Nat) (r : Node K V) (lk : K) (lv : V)
    (lh : Nat) (ll lr : Node K V)
    (b2 : toInt8 (subSizeT (getNodeHeight r) lh) = -2)
    (b3 : ¬ toInt8 (subSizeT (getNodeHeight lr) (getNodeHeight ll)) > 0) :
    balance (.mk k v h (.mk lk lv lh ll lr) r) =
      some (.mk lk lv
        (max (getNodeHeight ll) (max (getNodeHeight lr) (getNodeHeight r) + 1) + 1)
        ll (.mk k v (max (getNodeHeight lr) (getNodeHeight r) + 1) lr r)) := by
  simp [balance, rotateRight, b2, b3]

theorem balance_right_double (k : K) (v : V) (h : Nat) (r : Node K V) (lk : K) (lv : V)
    (lh : Nat) (ll : Node K V) (mk_ : K) (mv : V) (mh : Nat) (ml mr : Node K V)
    (b2 : toInt8 (subSizeT (getNodeHeight r) lh) = -2)
    (b3 : toInt8 (subSizeT mh (getNodeHeight ll)) > 0) :
    balance (.mk k v h (.mk lk lv lh ll (.mk mk_ mv mh ml mr)) r) =
      some (.mk mk_ mv
        (max (max (getNodeHeight ll) (getNodeHeight ml) + 1)
          (max (getNodeHeight mr) (getNodeHeight r) + 1) + 1)
        (.mk lk lv (max (getNodeHeight ll) (getNodeHeight ml) + 1) ll ml)
        (.mk k v (max (getNodeHeight mr) (getNodeHeight r) + 1) mr r)) := by
  simp [balance, rotateLeft, rotateRight, b2, b3]

theorem balance_spec_right_heavy (k : K) (v : V) (h : Nat) (l r : Node K V) (hl : Avl l)
    (hr : Avl r) (c2 : getNodeHeight r = getNodeHeight l + 2) :
    ∃ t, balance (.mk k v h l r) = some t ∧ BalancePost k v l r t := by
  have e := toInt8_subSizeT (getNodeHeight r) (getNodeHeight l) (by omega) (by omega)
  cases r with
  | null => simp at c2
  | mk rk rv rh rl rr =>
    obtain ⟨arl, arr, ehr, d1, d2⟩ := hr
    have er := toInt8_subSizeT (getNodeHeight rr) (getNodeHeight rl) (by omega) (by omega)
    simp only [getNodeHeight_mk] at c2 e
    by_cases c3 : getNodeHeight rr < getNodeHeight rl
    · cases rl with
      | null => simp at c3
      | mk mk_ mv mh ml mr =>
        obtain ⟨aml, amr, ehm, d3, d4⟩ := arl
        simp only [getNodeHeight_mk] at c3 er ehr d1 d2
        refine ⟨_, balance_left_double k v h l rk rv rh rr mk_ mv mh ml mr
          (by rw [e]; omega) (by rw [er]; omega), ?_⟩
        refine ⟨⟨⟨hl, aml, rfl, ?_, ?_⟩, ⟨amr, arr, rfl, ?_, ?_⟩, rfl, ?_, ?_⟩, ?_, ?_, ?_⟩ <;>
          first
          | omega
          | (simp only [getNodeHeight_mk]; omega)
          | simp
    · refine ⟨_, balance_left_single k v h l rk rv rh rl rr
        (by rw [e]; omega) (by rw [er]; omega), ?_⟩
      refine ⟨⟨⟨hl, arl, rfl, ?_, ?_⟩, arr, rfl, ?_, ?_⟩, ?_, ?_, ?_⟩ <;>
        first
        | omega
        | (simp only [getNodeHeight_mk]; omega)
        | simp

theorem balance_spec_left_heavy (k : K) (v : V) (h : Nat) (l r : Node K V) (hl : Avl l)
    (hr : Avl r) (c2 : getNodeHeight l = getNodeHeight r + 2) :
    ∃ t, balance (.mk k v h l r) = some t ∧ BalancePost k v l r t := by
  have e := toInt8_subSizeT (getNodeHeight r) (getNodeHeight l) (by omega) (by omega)
  cases l with
  | null => simp at c2
  | mk lk lv lh ll lr =>
    obtain ⟨all, alr, ehl, d1, d2⟩ := hl
    have el := toInt8_subSizeT (getNodeHeight lr) (getNodeHeight ll) (by omega) (by omega)
    simp only [getNodeHeight_mk] at c2 e
    by_cases c3 : getNodeHeight ll < getNodeHeight lr
    · cases lr with
      | null => simp at c3
      | mk mk_ mv mh ml mr =>
        obtain ⟨aml, amr, ehm, d3, d4⟩ := alr
        simp only [getNodeHeight_mk] at c3 el ehl d1 d2
        refine ⟨_, balance_right_double k v h r lk lv lh ll mk_ mv mh ml mr
          (by rw [e]; omega) (by rw [el]; omega), ?_⟩
        refine ⟨⟨⟨all, aml, rfl, ?_, ?_⟩, ⟨amr, hr, rfl, ?_, ?_⟩, rfl, ?_, ?_⟩, ?_, ?_, ?_⟩ <;>
          first
          | omega
          | (simp only [getNodeHeight_mk]; omega)
          | simp
    · refine ⟨_, balance_right_single k v h r lk lv lh ll lr
        (by rw [e]; omega) (by rw [el]; omega), ?_⟩
      refine ⟨⟨all, ⟨alr, hr, rfl, ?_, ?_⟩, rfl, ?_, ?_⟩, ?_, ?_, ?_⟩ <;>
        first
        | omega
        | (simp only [getNodeHeight_mk]; omega)
        | simp

theorem balance_spec (k : K) (v : V) (h : Nat) (l r : Node K V) (hl : Avl l) (hr : Avl r)
    (h1 : getNodeHeight l ≤ getNodeHeight r + 2)
    (h2 : getNodeHeight r ≤ getNodeHeight l + 2) :
    ∃ t, balance (.mk k v h l r) = some t ∧ BalancePost k v l r t := by
  by_cases c2 : getNodeHeight r = getNodeHeight l + 2
  · exact balance_spec_right_heavy k v h l r hl hr c2
  · by_cases c4 : getNodeHeight l = getNodeHeight r + 2
    · exact balance_spec_left_heavy k v h l r hl hr c4
    · have e := toInt8_subSizeT (getNodeHeight r) (getNodeHeight l) (by omega) (by omega)
      refine ⟨_, balance_neutral k v h l r (by rw [e]; omega) (by rw [e]; omega), ?_⟩
      refine ⟨⟨hl, hr, rfl, ?_, ?_⟩, ?_, ?_, ?_⟩ <;>
        first
        | omega
        | (simp only [getNodeHeight_mk]; omega)
        | simp

theorem findMin_mk_mk (k : K) (v : V) (h : Nat) (lk : K) (lv : V) (lh : Nat)
    (ll lr r : Node K V) :
    findMin (.mk k v h (.mk lk lv lh ll lr) r) = findMin (.mk lk lv lh ll lr) := rfl

theorem removeMin_mk_mk (k : K) (v : V) (h : Nat) (lk : K) (lv : V) (lh : Nat)
    (ll lr r : Node K V) :
    removeMin (.mk k v h (.mk lk lv lh ll lr) r) =
      (removeMin (.mk lk lv lh ll lr)).bind (fun l => balance (.mk k v h l r)) := rfl

theorem removeMin_spec :
    ∀ t : Node K V, t ≠ .null → Avl t →
      ∃ mkey mvalue mheight ml mr t',
        findMin t = some (.mk mkey mvalue mheight ml mr) ∧ removeMin t = some t' ∧ Avl t' ∧
        toList t = (mkey, mvalue) :: toList t' ∧
        (getNodeHeight t' = getNodeHeight t ∨ getNodeHeight t' + 1 = getNodeHeight t)
  | .null, hn, _ => absurd rfl hn
  | .mk k v h .null r, _, ha => by
    obtain ⟨-, ar, eh, d1, d2⟩ := ha
    refine ⟨k, v, h, .null, r, r, rfl, rfl, ar, by simp, ?_⟩
    simp only [getNodeHeight_mk, getNodeHeight_null] at *
    omega
  | .mk k v h (.mk lk lv lh ll lr) r, _, ha => by
    obtain ⟨al, ar, eh, d1, d2⟩ := ha
    obtain ⟨mkey, mvalue, mheight, ml, mr, l', e1, e2, al', tl, hh⟩ :=
      removeMin_spec (.mk lk lv lh ll lr) (by simp) al
    obtain ⟨t, e3, at_, tt, ht, -⟩ := balance_spec k v h l' r al' ar (by omega) (by omega)
    refine ⟨mkey, mvalue, mheight, ml, mr, t, ?_, ?_, at_, ?_, ?_⟩
    · rw [findMin_mk_mk, e1]
    · rw [removeMin_mk_mk, e2]
      exact e3
    · rw [toList_mk, tl, tt]
      simp
    · simp only [getNodeHeight_mk] at *
      omega

theorem isBalanced_of_avl : ∀ t : Node K V, Avl t → isBalanced t = some (true, t)
  | .null, _ => rfl
  | .mk k v h l r, ⟨al, ar, eh, d1, d2⟩ => by
    have e := toInt8_subSizeT (getNodeHeight r) (getNodeHeight l) (by omega) (by omega)
    have f : inFrame ((getNodeHeight r : Int) - (getNodeHeight l : Int)) = true := by
      simp only [inFrame, Bool.and_eq_true, decide_eq_true_eq]
      omega
    simp [isBalanced, isBalanced_of_avl l al, isBalanced_of_avl r ar, getBFactorForce, e, f,
      ← eh]

section Ordered

open Assoc

variable [LinearOrder K]

theorem appendTo_spec (key : K) (value : V) :
    ∀ t : Node K V, Avl t → Ordered t →
      ∃ t', appendTo t key value = some t' ∧ Avl t' ∧
        toList t' = insertSorted key value (toList t) ∧
        (getNodeHeight t' = getNodeHeight t ∨ getNodeHeight t' = getNodeHeight t + 1)
  | .null, _, _ => by
    refine ⟨ctor key value, rfl, ?_, ?_, ?_⟩
    · simp [ctor, Avl]
    · simp [ctor, insertSorted]
    · simp [ctor]
  | .mk k v h l r, ha, ho => by
    obtain ⟨al, ar, eh, d1, d2⟩ := ha
    obtain ⟨ol, or_, kl, kr⟩ := ho
    have kl' : ∀ p ∈ toList l, p.1 < k := fun p hp => kl p.1 (List.mem_map_of_mem _ hp)
    by_cases c1 : k = key
    · subst c1
      refine ⟨.mk k value h l r, by simp [appendTo], ⟨al, ar, eh, d1, d2⟩, ?_, Or.inl rfl⟩
      rw [toList_mk, toList_mk, insertSorted_append_ge k value _ _ kl']
      simp [insertSorted]
    · by_cases c2 : key < k
      · obtain ⟨l', e1, al', tl', hh⟩ := appendTo_spec key value l al ol
        obtain ⟨t, e2, at_, tt, ht, -⟩ :=
          balance_spec k v h l' r al' ar (by omega) (by omega)
        refine ⟨t, by simp [appendTo, c1, c2, e1, e2], at_, ?_, ?_⟩
        · rw [tt, tl', toList_mk, insertSorted_append_lt key value k v c2]
        · simp only [getNodeHeight_mk]
          omega
      · obtain ⟨r', e1, ar', tr', hh⟩ := appendTo_spec key value r ar or_
        obtain ⟨t, e2, at_, tt, ht, -⟩ :=
          balance_spec k v h l r' al ar' (by omega) (by omega)
        have c3 : k < key := lt_of_le_of_ne (not_lt.mp c2) c1
        have klt : ∀ p ∈ toList l, p.1 < key := fun p hp => lt_trans (kl' p hp) c3
        refine ⟨t, by simp [appendTo, c1, c2, e1, e2], at_, ?_, ?_⟩
        · rw [tt, tr', toList_mk, insertSorted_append_ge key value _ _ klt]
          have n3 : ¬ key = k := fun e => c1 e.symm
          simp [insertSorted, c2, n3]
        · simp only [getNodeHeight_mk]
          omega

theorem remove_spec (key : K) :
    ∀ t : Node K V, Avl t → Ordered t →
      ∃ t', remove t key = some t' ∧ Avl t' ∧
        toList t' = eraseKey key (toList t) ∧
        (getNodeHeight t' = getNodeHeight t ∨ getNodeHeight t' + 1 = getNodeHeight t)
  | .null, _, _ => ⟨.null, rfl, trivial, rfl, Or.inl rfl⟩
  | .mk k v h l r, ha, ho => by
    obtain ⟨al, ar, eh, d1, d2⟩ := ha
    obtain ⟨ol, or_, kl, kr⟩ := ho
    by_cases c1 : key < k
    · obtain ⟨l', e1, al', tl', hh⟩ := remove_spec key l al ol
      obtain ⟨t, e2, at_, tt, ht, -⟩ := balance_spec k v h l' r al' ar (by omega) (by omega)
      refine ⟨t, by simp [remove, c1, e1, e2], at_, ?_, ?_⟩
      · have hn : key ∉ ((k, v) :: toList r).map Prod.fst := by
          simp only [List.map_cons, List.mem_cons, not_or]
          exact ⟨ne_of_lt c1, fun hm => lt_asymm c1 (kr key hm)⟩
        rw [tt, tl', toList_mk, eraseKey_append, eraseKey_of_not_mem key _ hn]
      · simp only [getNodeHeight_mk]
        omega
    · by_cases c2 : k < key
      · obtain ⟨r', e1, ar', tr', hh⟩ := remove_spec key r ar or_
        obtain ⟨t, e2, at_, tt, ht, -⟩ := balance_spec k v h l r' al ar' (by omega) (by omega)
        refine ⟨t, by simp [remove, c1, c2, e1, e2], at_, ?_, ?_⟩
        · have hn : key ∉ (toList l).map Prod.fst := fun hm => lt_asymm c2 (kl key hm)
          rw [tt, tr', toList_mk, eraseKey_append, eraseKey_of_not_mem key _ hn,
            eraseKey_cons_ne key (k, v) _ (ne_of_lt c2)]
        · simp only [getNodeHeight_mk]
          omega
      · have c3 : key = k := le_antisymm (not_lt.mp c2) (not_lt.mp c1)
        subst c3
        have hnl : key ∉ (toList l).map Prod.fst := fun hm => lt_irrefl _ (kl key hm)
        have hnr : key ∉ (toList r).map Prod.fst := fun hm => lt_irrefl _ (kr key hm)
        have et : eraseKey key (toList (.mk key v h l r)) = toList l ++ toList r := by
          rw [toList_mk, eraseKey_append, eraseKey_of_not_mem key _ hnl,
            eraseKey_cons_eq, eraseKey_of_not_mem key _ hnr]
        cases r with
        | null =>
          refine ⟨l, by simp [remove], al, by rw [et]; simp, ?_⟩
          simp only [getNodeHeight_mk, getNodeHeight_null] at *
          omega
        | mk rk rv rh rl rr =>
          obtain ⟨mkey, mvalue, mheight, ml, mr, r', e1, e2, ar', tr, hh⟩ :=
            removeMin_spec (.mk rk rv rh rl rr) (by simp) ar
          obtain ⟨t, e3, at_, tt, ht, -⟩ :=
            balance_spec mkey mvalue mheight l r' al ar' (by omega) (by omega)
          refine ⟨t, by simp [remove, e1, e2, e3], at_, ?_, ?_⟩
          · rw [et, tt, tr]
          · simp only [getNodeHeight_mk] at *
            omega

theorem find_of_mem [Inhabited V] (key : K) (value : V) :
    ∀ t : Node K V, Ordered t → (key, value) ∈ toList t → find t key = value
  | .null, _, hm => by simp at hm
  | .mk k v h l r, ⟨ol, or_, kl, kr⟩, hm => by
    rw [toList_mk, List.mem_append, List.mem_cons] at hm
    rcases hm with hm | hm | hm
    · have c : key < k := kl key (List.mem_map_of_mem Prod.fst hm)
      have n : ¬ k = key := fun e => ne_of_lt c e.symm
      simp [find, n, c, find_of_mem key value l ol hm]
    · cases hm
      simp [find]
    · have c : k < key := kr key (List.mem_map_of_mem Prod.fst hm)
      have n : ¬ k = key := ne_of_lt c
      have n2 : ¬ key < k := lt_asymm c
      simp [find, n, n2, find_of_mem key value r or_ hm]

theorem find_of_not_mem [Inhabited V] (key : K) :
    ∀ t : Node K V, key ∉ keys t → find t key = default
  | .null, _ => rfl
  | .mk k v h l r, hn => by
    rw [keys_mk, List.mem_append, List.mem_cons] at hn
    push_neg at hn
    obtain ⟨h1, h2, h3⟩ := hn
    have n : ¬ k = key := fun e => h2 e.symm
    by_cases c : key < k
    · simp [find, n, c, find_of_not_mem key l h1]
    · simp [find, n, c, find_of_not_mem key r h3]

end Ordered

end AVLTree

/-! ## The public interface -/

namespace AVLTree

open Node Assoc

variable {K V : Type} [LinearOrder K]

theorem invariants_of_avl (t : Node K V) (ha : Avl t)
    (hs : ((toList t).map Prod.fst).Pairwise (· < ·)) : Invariants t :=
  ⟨(ordered_iff_sorted t).mpr hs, ((avl_iff t).mp ha).1, ((avl_iff t).mp ha).2⟩

theorem avl_of_invariants (t : Node K V) (hi : Invariants t) : Avl t :=
  (avl_iff t).mpr ⟨hi.2.1, hi.2.2⟩

theorem sorted_of_invariants (t : Node K V) (hi : Invariants t) :
    ((toList t).map Prod.fst).Pairwise (· < ·) :=
  (ordered_iff_sorted t).mp hi.1

theorem appendTo_invariants (t : Node K V) (hi : Invariants t) (key : K) (value : V) :
    ∃ t', appendTo t key value = some t' ∧ Invariants t' ∧
      toList t' = insertSorted key value (toList t) := by
  obtain ⟨t', e, a, tl, -⟩ := appendTo_spec key value t (avl_of_invariants t hi) hi.1
  refine ⟨t', e, invariants_of_avl t' a ?_, tl⟩
  rw [tl]
  exact insertSorted_sorted key value _ (sorted_of_invariants t hi)

theorem remove_invariants (t : Node K V) (hi : Invariants t) (key : K) :
    ∃ t', remove t key = some t' ∧ Invariants t' ∧
      toList t' = eraseKey key (toList t) := by
  obtain ⟨t', e, a, tl, -⟩ := remove_spec key t (avl_of_invariants t hi) hi.1
  refine ⟨t', e, invariants_of_avl t' a ?_, tl⟩
  rw [tl]
  exact eraseKey_sorted key _ (sorted_of_invariants t hi)

theorem remove_absent (key : K) :
    ∀ t : Node K V, Avl t → key ∉ keys t → remove t key = some t
  | .null, _, _ => rfl
  | .mk k v h l r, ⟨al, ar, eh, d1, d2⟩, hn => by
    rw [keys_mk, List.mem_append, List.mem_cons] at hn
    push_neg at hn
    obtain ⟨h1, h2, h3⟩ := hn
    obtain ⟨t, e, -, -, -, ht⟩ := balance_spec k v h l r al ar (by omega) (by omega)
    have et : t = .mk k v h l r := by rw [ht d1 d2, eh]
    rw [et] at e
    by_cases c : key < k
    · simp [remove, c, remove_absent key l al h1, e]
    · have c2 : k < key := lt_of_le_of_ne (not_lt.mp c) (fun e => h2 e.symm)
      simp [remove, c, c2, remove_absent key r ar h3, e]

theorem insert_eq (t : AVLTree K V) (key : K) (value : V) :
    t.insert key value = (appendTo t.root key value).map AVLTree.mk := by
  obtain ⟨root⟩ := t
  cases root with
  | null => rfl
  | mk k v h l r =>
    simp only [insert]
    cases appendTo (Node.mk k v h l r) key value <;> rfl

end AVLTree

namespace Map

open Node Assoc AVLTree

variable {K V : Type} [LinearOrder K]

theorem insert_spec (m : Map K V) (hi : Invariants m.tree.root) (key : K) (value : V) :
    ∃ m', m.insert key value = some m' ∧ Invariants m'.tree.root ∧
      toList m'.tree.root = insertSorted key value (toList m.tree.root) := by
  obtain ⟨t', e, i', tl⟩ := appendTo_invariants m.tree.root hi key value
  exact ⟨⟨⟨t'⟩⟩, by simp [Map.insert, insert_eq, e], i', tl⟩

theorem erase_spec (m : Map K V) (hi : Invariants m.tree.root) (key : K) :
    ∃ m', m.erase key = some m' ∧ Invariants m'.tree.root ∧
      toList m'.tree.root = eraseKey key (toList m.tree.root) := by
  obtain ⟨t', e, i', tl⟩ := remove_invariants m.tree.root hi key
  exact ⟨⟨⟨t'⟩⟩, by simp [Map.erase, removeKey, e], i', tl⟩

theorem empty_invariants : Invariants (empty : Map K V).tree.root :=
  ⟨trivial, trivial, trivial⟩

theorem runFrom_invariants :
    ∀ (ops : List (Op K V)) (m : Map K V), Invariants m.tree.root →
      ∃ m', runFrom m ops = some m' ∧ Invariants m'.tree.root
  | [], m, hi => ⟨m, rfl, hi⟩
  | Op.insert k v :: ops, m, hi => by
    obtain ⟨m1, e1, i1, -⟩ := insert_spec m hi k v
    obtain ⟨m2, e2, i2⟩ := runFrom_invariants ops m1 i1
    exact ⟨m2, by simp [runFrom, step, e1, e2], i2⟩
  | Op.erase k :: ops, m, hi => by
    obtain ⟨m1, e1, i1, -⟩ := erase_spec m hi k
    obtain ⟨m2, e2, i2⟩ := runFrom_invariants ops m1 i1
    exact ⟨m2, by simp [runFrom, step, e1, e2], i2⟩

theorem run_invariants (ops : List (Op K V)) :
    ∃ m, run ops = some m ∧ Invariants m.tree.root :=
  runFrom_invariants ops empty empty_invariants

theorem invariants_of_run (ops : List (Op K V)) (m : Map K V) (hr : run ops = some m) :
    Invariants m.tree.root := by
  obtain ⟨m', e, i⟩ := run_invariants ops
  rw [hr] at e
  cases e
  exact i

end Map

namespace Map

open Node Assoc AVLTree

variable {K V : Type} [LinearOrder K]

theorem find_insert [Inhabited V] (m : Map K V) (hi : Invariants m.tree.root) (k : K) (v : V) :
    ∃ m', m.insert k v = some m' ∧ Invariants m'.tree.root ∧ m'.find k = v ∧
      toList m'.tree.root = insertSorted k v (toList m.tree.root) := by
  obtain ⟨m', e, i', tl⟩ := insert_spec m hi k v
  refine ⟨m', e, i', ?_, tl⟩
  apply find_of_mem k v m'.tree.root i'.1
  rw [tl]
  exact self_mem_insertSorted k v _

theorem runFrom_inserts_size :
    ∀ (kvs : List (K × V)) (m : Map K V), Invariants m.tree.root →
      (kvs.map Prod.fst).Nodup → (∀ k ∈ kvs.map Prod.fst, k ∉ keys m.tree.root) →
      ∃ m', runFrom m (kvs.map (fun p => Op.insert p.1 p.2)) = some m' ∧
        Invariants m'.tree.root ∧ size m'.tree.root = size m.tree.root + kvs.length
  | [], m, hi, _, _ => ⟨m, rfl, hi, rfl⟩
  | (k, v) :: kvs, m, hi, hd, hn => by
    simp only [List.map_cons, List.nodup_cons] at hd
    obtain ⟨m1, e1, i1, tl⟩ := insert_spec m hi k v
    have hk : k ∉ (toList m.tree.root).map Prod.fst := hn k (by simp)
    have hn1 : ∀ x ∈ kvs.map Prod.fst, x ∉ keys m1.tree.root := by
      intro x hx hm
      obtain ⟨p, hp, rfl⟩ := List.mem_map.mp hm
      rw [tl] at hp
      rcases mem_insertSorted k v p _ hp with h | h
      · rw [h] at hx
        exact hd.1 hx
      · exact hn p.1 (by simp [hx]) (List.mem_map_of_mem _ h)
    obtain ⟨m2, e2, i2, s2⟩ := runFrom_inserts_size kvs m1 i1 hd.2 hn1
    refine ⟨m2, by simp [runFrom, step, e1, e2], i2, ?_⟩
    rw [s2, size_eq_length m1.tree.root, tl, length_insertSorted_new k v _ hk,
      size_eq_length m.tree.root, List.length_cons]
    omega

end Map

/-! ## The golden-ratio form of the Fibonacci bound -/

theorem gold_pow_le_fib : ∀ n : Nat, goldenRatio ^ n ≤ (Nat.fib (n + 2) : ℝ)
  | 0 => by simp
  | 1 => by
    have := gold_lt_two
    simp [Nat.fib_add_two]
    linarith
  | n + 2 => by
    have i0 := gold_pow_le_fib n
    have i1 := gold_pow_le_fib (n + 1)
    have e := gold_pow_sub_gold_pow n
    have f : Nat.fib (n + 2 + 2) = Nat.fib (n + 2) + Nat.fib (n + 1 + 2) := Nat.fib_add_two
    rw [f]
    push_cast
    linarith

theorem le_log_of_fib_le (h N : Nat) (f : Nat.fib (h + 2) ≤ N + 1) :
    (h : ℝ) ≤ Real.logb 2 ((N : ℝ) + 1) / Real.logb 2 goldenRatio := by
  have g : goldenRatio ^ h ≤ (N : ℝ) + 1 := by
    refine le_trans (gold_pow_le_fib h) ?_
    exact_mod_cast f
  have hN : (0 : ℝ) < (N : ℝ) + 1 := by positivity
  have hφ : 0 < Real.log goldenRatio := Real.log_pos one_lt_gold
  have h2 : 0 < Real.log 2 := Real.log_pos (by norm_num)
  have l : (h : ℝ) * Real.log goldenRatio ≤ Real.log ((N : ℝ) + 1) := by
    rw [← Real.log_pow]
    exact Real.log_le_log (pow_pos gold_pos h) g
  unfold Real.logb
  rw [div_div_div_cancel_right₀ (ne_of_gt h2), le_div_iff₀ hφ]
  exact l

/-! ## The contracts -/

open Node AVLTree

/-- C1. After any finite sequence of `insert`/`erase` calls on an initially empty `Map`, all
calls having returned, every node of the tree has balance factor
`height(right) - height(left)` in `{-1, 0, 1}` (on the true heights, and as `getBFactor`
computes it from the cached heights), and `isMyTreeBalanced` returns `true`, leaving the
map as it was. -/
theorem avl_balance_invariant {K V : Type} [LinearOrder K] (ops : List (Op K V)) :
    ∃ m, Map.run ops = some m ∧ Balanced m.tree.root ∧ FactorsInFrame m.tree.root ∧
      m.isMyTreeBalanced = some (true, m) := by
  obtain ⟨m, e, i⟩ := Map.run_invariants ops
  have a := avl_of_invariants _ i
  refine ⟨m, e, i.2.1, avl_factorsInFrame _ a, ?_⟩
  simp [Map.isMyTreeBalanced, isBalancedRoot, isBalanced_of_avl _ a]

/-- C2. After any finite sequence of `insert`/`erase` calls on an initially empty `Map`,
every node has all keys of its left subtree strictly smaller than its key and all keys of
its right subtree strictly greater; in particular no key occurs twice. -/
theorem bst_ordering_invariant {K V : Type} [LinearOrder K] (ops : List (Op K V)) :
    ∃ m, Map.run ops = some m ∧ Ordered m.tree.root ∧ (keys m.tree.root).Nodup := by
  obtain ⟨m, e, i⟩ := Map.run_invariants ops
  refine ⟨m, e, i.1, ?_⟩
  exact (sorted_of_invariants _ i).imp ne_of_lt

/-- C3. After any finite sequence of `insert`/`erase` calls on an initially empty `Map`,
every node's cached height is `1 + max(height(left), height(right))`, an absent child
counting `0`, and hence equals the true height of its subtree. -/
theorem height_correct_invariant {K V : Type} [LinearOrder K] (ops : List (Op K V)) :
    ∃ m, Map.run ops = some m ∧ HeightOk m.tree.root ∧ HeightsExact m.tree.root := by
  obtain ⟨m, e, i⟩ := Map.run_invariants ops
  exact ⟨m, e, i.2.2, heightOk_heightsExact _ i.2.2⟩

/-- C4. On every `Map` reachable from the empty one by `insert`/`erase` calls,
`insert(k, v)` returns and a following `find(k)` returns `v`. -/
theorem insert_find_round_trip {K V : Type} [LinearOrder K] [Inhabited V]
    (ops : List (Op K V)) (m : Map K V) (hr : Map.run ops = some m) (k : K) (v : V) :
    ∃ m', m.insert k v = some m' ∧ m'.find k = v := by
  obtain ⟨m', e, -, f, -⟩ := Map.find_insert m (Map.invariants_of_run ops m hr) k v
  exact ⟨m', e, f⟩

theorem insert_find_round_trip_witness :
    Map.run [Op.insert 5 1, Op.insert 3 2, Op.erase 5] =
        some (⟨⟨Node.mk 3 2 1 Node.null Node.null⟩⟩ : Map Nat Nat) ∧
      ∃ m', (⟨⟨Node.mk 3 2 1 Node.null Node.null⟩⟩ : Map Nat Nat).insert 4 9 = some m' ∧
        m'.find 4 = 9 :=
  ⟨rfl, insert_find_round_trip [Op.insert 5 1, Op.insert 3 2, Op.erase 5] _ (by rfl) 4 9⟩

/-- C5. On every tree that satisfies the BST ordering invariant, `find(k)` returns the
value stored in the node whose key is `k` when there is such a node anywhere in the tree,
and the default-constructed value when no node has key `k`. -/
theorem find_correct {K V : Type} [LinearOrder K] [Inhabited V] (m : Map K V)
    (ho : Ordered m.tree.root) (k : K) :
    (∀ v, (k, v) ∈ toList m.tree.root → m.find k = v) ∧
      (k ∉ keys m.tree.root → m.find k = default) :=
  ⟨fun v hv => find_of_mem k v m.tree.root ho hv, fun hn => find_of_not_mem k m.tree.root hn⟩

theorem find_correct_witness :
    Ordered (Node.mk 5 10 2 (Node.mk 3 20 1 Node.null Node.null) Node.null : Node Nat Nat) ∧
      ((∀ v, (3, v) ∈ toList (Node.mk 5 10 2 (Node.mk 3 20 1 Node.null Node.null) Node.null :
          Node Nat Nat) →
        (⟨⟨Node.mk 5 10 2 (Node.mk 3 20 1 Node.null Node.null) Node.null⟩⟩ : Map Nat Nat).find 3
          = v) ∧
      (3 ∉ keys (Node.mk 5 10 2 (Node.mk 3 20 1 Node.null Node.null) Node.null : Node Nat Nat) →
        (⟨⟨Node.mk 5 10 2 (Node.mk 3 20 1 Node.null Node.null) Node.null⟩⟩ : Map Nat Nat).find 3
          = default)) :=
  ⟨by simp [Ordered], find_correct ⟨⟨Node.mk 5 10 2 (Node.mk 3 20 1 Node.null Node.null) Node.null⟩⟩
    (by simp [Ordered]) 3⟩

/-- C6. On every `Map` reachable from the empty one, `insert(k, v1)` then `insert(k, v2)`
both return, `find(k)` then returns `v2`, and the tree has as many nodes as after
`insert(k, v1)` alone. -/
theorem upsert {K V : Type} [LinearOrder K] [Inhabited V]
    (ops : List (Op K V)) (m : Map K V) (hr : Map.run ops = some m) (k : K) (v1 v2 : V) :
    ∃ m1 m2, m.insert k v1 = some m1 ∧ m1.insert k v2 = some m2 ∧ m2.find k = v2 ∧
      size m2.tree.root = size m1.tree.root := by
  obtain ⟨m1, e1, i1, -, t1⟩ := Map.find_insert m (Map.invariants_of_run ops m hr) k v1
  obtain ⟨m2, e2, -, f2, t2⟩ := Map.find_insert m1 i1 k v2
  refine ⟨m1, m2, e1, e2, f2, ?_⟩
  rw [size_eq_length, size_eq_length, t2, t1, Assoc.insertSorted_insertSorted]
  exact Assoc.length_insertSorted k v2 v1 _

theorem upsert_witness :
    Map.run [Op.insert 5 1, Op.insert 3 2] =
        some (⟨⟨Node.mk 5 1 2 (Node.mk 3 2 1 Node.null Node.null) Node.null⟩⟩ : Map Nat Nat) ∧
      ∃ m1 m2,
        (⟨⟨Node.mk 5 1 2 (Node.mk 3 2 1 Node.null Node.null) Node.null⟩⟩ : Map Nat Nat).insert 4 7
          = some m1 ∧
        m1.insert 4 8 = some m2 ∧ m2.find 4 = 8 ∧ size m2.tree.root = size m1.tree.root :=
  ⟨rfl, upsert [Op.insert 5 1, Op.insert 3 2] _ (by rfl) 4 7 8⟩

/-- C7. On every `Map` reachable from the empty one, `insert(k, v)` then `erase(k)` both
return, `find(k)` then returns the default-constructed value, and `k` is the key of no
node of the tree. -/
theorem insert_erase_find {K V : Type} [LinearOrder K] [Inhabited V]
    (ops : List (Op K V)) (m : Map K V) (hr : Map.run ops = some m) (k : K) (v : V) :
    ∃ m1 m2, m.insert k v = some m1 ∧ m1.erase k = some m2 ∧ m2.find k = default ∧
      k ∉ keys m2.tree.root := by
  obtain ⟨m1, e1, i1, -⟩ := Map.insert_spec m (Map.invariants_of_run ops m hr) k v
  obtain ⟨m2, e2, -, t2⟩ := Map.erase_spec m1 i1 k
  have hn : k ∉ keys m2.tree.root := by
    unfold keys
    rw [t2]
    exact Assoc.not_mem_eraseKey k _
  exact ⟨m1, m2, e1, e2, find_of_not_mem k _ hn, hn⟩

theorem insert_erase_find_witness :
    Map.run [Op.insert 5 1, Op.insert 3 2] =
        some (⟨⟨Node.mk 5 1 2 (Node.mk 3 2 1 Node.null Node.null) Node.null⟩⟩ : Map Nat Nat) ∧
      ∃ m1 m2,
        (⟨⟨Node.mk 5 1 2 (Node.mk 3 2 1 Node.null Node.null) Node.null⟩⟩ : Map Nat Nat).insert 5 9
          = some m1 ∧
        m1.erase 5 = some m2 ∧ m2.find 5 = default ∧ 5 ∉ keys m2.tree.root :=
  ⟨rfl, insert_erase_find [Op.insert 5 1, Op.insert 3 2] _ (by rfl) 5 9⟩

/-- C8. On every `Map` reachable from the empty one (the empty one included), `erase(k)`
of a key `k` that is not stored returns and leaves the tree exactly as it was: same shape,
same keys and values at the same positions, same cached heights. -/
theorem erase_missing_noop {K V : Type} [LinearOrder K]
    (ops : List (Op K V)) (m : Map K V) (hr : Map.run ops = some m) (k : K)
    (hk : k ∉ keys m.tree.root) :
    m.erase k = some m := by
  have a := avl_of_invariants _ (Map.invariants_of_run ops m hr)
  simp [Map.erase, removeKey, remove_absent k m.tree.root a hk]

theorem erase_missing_noop_witness :
    (Map.run [Op.insert 5 1, Op.insert 3 2, Op.insert 8 3] =
        some (⟨⟨Node.mk 5 1 2 (Node.mk 3 2 1 Node.null Node.null)
          (Node.mk 8 3 1 Node.null Node.null)⟩⟩ : Map Nat Nat) ∧
      4 ∉ keys (Node.mk 5 1 2 (Node.mk 3 2 1 Node.null Node.null)
          (Node.mk 8 3 1 Node.null Node.null) : Node Nat Nat)) ∧
      (⟨⟨Node.mk 5 1 2 (Node.mk 3 2 1 Node.null Node.null)
          (Node.mk 8 3 1 Node.null Node.null)⟩⟩ : Map Nat Nat).erase 4 =
        some ⟨⟨Node.mk 5 1 2 (Node.mk 3 2 1 Node.null Node.null)
          (Node.mk 8 3 1 Node.null Node.null)⟩⟩ :=
  ⟨⟨rfl, by decide⟩,
    erase_missing_noop [Op.insert 5 1, Op.insert 3 2, Op.insert 8 3] _ (by rfl) 4 (by decide)⟩

/-- C9. Inserting `N` bindings with distinct keys, in any order, into an empty `Map`
returns a tree with exactly `N` nodes whose height `h` (the root's cached height, `0` when
empty, equal to the true height) satisfies the AVL Fibonacci bound `Fib(h + 2) ≤ N + 1`
with `Fib(1) = Fib(2) = 1`, in particular `2 ^ h ≤ (N + 1) ^ 2`, and
`h ≤ c * log2(N + 1)` for `c = 1 / log2(golden ratio)`. -/
theorem height_bound {K V : Type} [LinearOrder K] (kvs : List (K × V))
    (hd : (kvs.map Prod.fst).Nodup) :
    ∃ m, Map.run (kvs.map (fun p => Op.insert p.1 p.2)) = some m ∧
      size m.tree.root = kvs.length ∧
      getNodeHeight m.tree.root = trueHeight m.tree.root ∧
      Nat.fib (getNodeHeight m.tree.root + 2) ≤ kvs.length + 1 ∧
      2 ^ getNodeHeight m.tree.root ≤ (kvs.length + 1) ^ 2 ∧
      (getNodeHeight m.tree.root : ℝ) ≤
        Real.logb 2 ((kvs.length : ℝ) + 1) / Real.logb 2 goldenRatio := by
  obtain ⟨m, e, i, s⟩ := Map.runFrom_inserts_size kvs Map.empty Map.empty_invariants hd
    (fun k _ hm => by simp [Map.empty] at hm)
  have s' : size m.tree.root = kvs.length := by
    rw [s]
    simp [Map.empty, size]
  have f := avl_fib _ (avl_of_invariants _ i)
  rw [s'] at f
  exact ⟨m, e, s', heightOk_trueHeight _ i.2.2, f,
    le_trans (two_pow_le_fib_sq _) (Nat.pow_le_pow_left f 2), le_log_of_fib_le _ _ f⟩

theorem height_bound_witness :
    ([(1, 10), (2, 20), (3, 30)].map Prod.fst).Nodup ∧
      ∃ m : Map Nat Nat,
        Map.run ([(1, 10), (2, 20), (3, 30)].map (fun p => Op.insert p.1 p.2)) = some m ∧
        size m.tree.root = [(1, 10), (2, 20), (3, 30)].length ∧
        getNodeHeight m.tree.root = trueHeight m.tree.root ∧
        Nat.fib (getNodeHeight m.tree.root + 2) ≤ [(1, 10), (2, 20), (3, 30)].length + 1 ∧
        2 ^ getNodeHeight m.tree.root ≤ ([(1, 10), (2, 20), (3, 30)].length + 1) ^ 2 ∧
        (getNodeHeight m.tree.root : ℝ) ≤
          Real.logb 2 (([(1, 10), (2, 20), (3, 30)].length : ℝ) + 1) /
            Real.logb 2 goldenRatio :=
  ⟨by decide, height_bound [(1, 10), (2, 20), (3, 30)] (by decide)⟩

/-- C10. On every tree that satisfies the three invariants, `insert` and `erase` return
for every key and value, that is, they never dereference an absent node (`balance` finds
the child it inspects and every rotation the child it promotes, `findMin` and `removeMin`
are called on a present node), and the tree they return satisfies the invariants again;
`find` checks its node before every access and is total. -/
theorem operations_total {K V : Type} [LinearOrder K] (m : Map K V)
    (hi : Invariants m.tree.root) (k : K) (v : V) :
    (∃ m', m.insert k v = some m' ∧ Invariants m'.tree.root) ∧
      (∃ m', m.erase k = some m' ∧ Invariants m'.tree.root) := by
  obtain ⟨m1, e1, i1, -⟩ := Map.insert_spec m hi k v
  obtain ⟨m2, e2, i2, -⟩ := Map.erase_spec m hi k
  exact ⟨⟨m1, e1, i1⟩, ⟨m2, e2, i2⟩⟩

theorem operations_total_witness :
    Invariants (Node.mk 5 1 2 (Node.mk 3 2 1 Node.null Node.null) Node.null : Node Nat Nat) ∧
      ((∃ m', (⟨⟨Node.mk 5 1 2 (Node.mk 3 2 1 Node.null Node.null) Node.null⟩⟩ :
            Map Nat Nat).insert 5 4 = some m' ∧ Invariants m'.tree.root) ∧
        (∃ m', (⟨⟨Node.mk 5 1 2 (Node.mk 3 2 1 Node.null Node.null) Node.null⟩⟩ :
            Map Nat Nat).erase 5 = some m' ∧ Invariants m'.tree.root)) :=
  ⟨by simp [Invariants, Ordered, Node.Balanced, HeightOk, trueHeight],
    operations_total ⟨⟨Node.mk 5 1 2 (Node.mk 3 2 1 Node.null Node.null) Node.null⟩⟩
      (by simp [Invariants, Ordered, Node.Balanced, HeightOk, trueHeight]) 5 4⟩

/-! ## Lemmas for the behaviour contracts -/


namespace Node

variable {K V : Type}

theorem replaceValue_of_not_mem [DecidableEq K] (key : K) (value : V) :
    ∀ t : Node K V, key ∉ keys t → replaceValue key value t = t
  | null, _ => rfl
  | mk k v h l r, hn => by
    rw [keys_mk, List.mem_append, List.mem_cons] at hn
    push_neg at hn
    obtain ⟨h1, h2, h3⟩ := hn
    have n : ¬ k = key := fun e => h2 e.symm
    simp [replaceValue, n, replaceValue_of_not_mem key value l h1,
      replaceValue_of_not_mem key value r h3]

@[simp]
theorem getNodeHeight_replaceValue [DecidableEq K] (key : K) (value : V) :
    ∀ t : Node K V, getNodeHeight (replaceValue key value t) = getNodeHeight t
  | null => rfl
  | mk _ _ _ _ _ => rfl

end Node

namespace AVLTree

open Node

variable {K V : Type} [LinearOrder K]

theorem appendTo_present (key : K) (value : V) :
    ∀ t : Node K V, Avl t → Ordered t → key ∈ keys t →
      appendTo t key value = some (replaceValue key value t)
  | .null, _, _, hm => by simp at hm
  | .mk k v h l r, ⟨al, ar, eh, d1, d2⟩, ⟨ol, or_, kl, kr⟩, hm => by
    rw [keys_mk, List.mem_append, List.mem_cons] at hm
    by_cases c1 : k = key
    · subst c1
      have nl : k ∉ keys l := fun hx => lt_irrefl _ (kl k hx)
      have nr : k ∉ keys r := fun hx => lt_irrefl _ (kr k hx)
      simp [appendTo, replaceValue, replaceValue_of_not_mem k value l nl,
        replaceValue_of_not_mem k value r nr]
    · by_cases c2 : key < k
      · have ml : key ∈ keys l := by
          rcases hm with hm | hm | hm
          · exact hm
          · exact absurd hm.symm c1
          · exact absurd (kr key hm) (lt_asymm c2)
        have nr : key ∉ keys r := fun hx => lt_asymm c2 (kr key hx)
        have ih := appendTo_present key value l al ol ml
        obtain ⟨l', e1, al', -, -⟩ := appendTo_spec key value l al ol
        rw [ih] at e1
        cases e1
        have g := getNodeHeight_replaceValue key value l
        obtain ⟨t, e2, -, -, -, ht⟩ := balance_spec k v h (replaceValue key value l) r al' ar
          (by omega) (by omega)
        rw [ht (by omega) (by omega), g, ← eh] at e2
        simp [appendTo, c1, c2, ih, e2, replaceValue, replaceValue_of_not_mem key value r nr]
      · have c3 : k < key := lt_of_le_of_ne (not_lt.mp c2) c1
        have mr : key ∈ keys r := by
          rcases hm with hm | hm | hm
          · exact absurd (kl key hm) (lt_asymm c3)
          · exact absurd hm.symm c1
          · exact hm
        have nl : key ∉ keys l := fun hx => lt_asymm c3 (kl key hx)
        have ih := appendTo_present key value r ar or_ mr
        obtain ⟨r', e1, ar', -, -⟩ := appendTo_spec key value r ar or_
        rw [ih] at e1
        cases e1
        have g := getNodeHeight_replaceValue key value r
        obtain ⟨t, e2, -, -, -, ht⟩ := balance_spec k v h l (replaceValue key value r) al ar'
          (by omega) (by omega)
        rw [ht (by omega) (by omega), g, ← eh] at e2
        simp [appendTo, c1, c2, ih, e2, replaceValue, replaceValue_of_not_mem key value l nl]

end AVLTree


namespace Node

variable {K V : Type}

theorem trueHeight_eraseHeights : ∀ t : Node K V, trueHeight (eraseHeights t) = trueHeight t
  | null => rfl
  | mk _ _ _ l r => by
    simp [eraseHeights, trueHeight, trueHeight_eraseHeights l, trueHeight_eraseHeights r]

theorem size_eraseHeights : ∀ t : Node K V, size (eraseHeights t) = size t
  | null => rfl
  | mk _ _ _ l r => by
    simp [eraseHeights, size, size_eraseHeights l, size_eraseHeights r]

theorem toList_eraseHeights : ∀ t : Node K V, toList (eraseHeights t) = toList t
  | null => rfl
  | mk _ _ _ l r => by
    simp [eraseHeights, toList_eraseHeights l, toList_eraseHeights r]

theorem balanced_eraseHeights : ∀ t : Node K V, Balanced (eraseHeights t) ↔ Balanced t
  | null => Iff.rfl
  | mk _ _ _ l r => by
    simp only [eraseHeights, Balanced, balanced_eraseHeights l, balanced_eraseHeights r,
      trueHeight_eraseHeights]

theorem fib_94 : 2 ^ 64 < Nat.fib 94 := by
  norm_num

/-- An AVL tree with fewer than `2 ^ 64` nodes has height at most 91. -/
theorem avl_height_lt (t : Node K V) (ha : Avl t) (hs : size t < 2 ^ 64) :
    getNodeHeight t < 92 := by
  by_contra hc
  have m : Nat.fib 94 ≤ Nat.fib (getNodeHeight t + 2) := Nat.fib_mono (by omega)
  have f := avl_fib t ha
  have := fib_94
  omega

end Node

namespace AVLTree

open Node

variable {K V : Type}

theorem isBalanced_mk (k : K) (v : V) (h : Nat) (l r : Node K V) :
    isBalanced (.mk k v h l r) =
      (isBalanced l).bind (fun pl =>
        if !pl.1 then some (false, .mk k v h pl.2 r) else
        (isBalanced r).bind (fun pr =>
          if !pr.1 then some (false, .mk k v h pl.2 pr.2) else
          some (inFrame (toInt8 (subSizeT (getNodeHeight pr.2) (getNodeHeight pl.2))),
            .mk k v (max (getNodeHeight pl.2) (getNodeHeight pr.2) + 1) pl.2 pr.2))) := by
  rw [isBalanced]
  cases isBalanced l with
  | none => rfl
  | some pl =>
    obtain ⟨bl, l'⟩ := pl
    cases bl
    · rfl
    · cases isBalanced r with
      | none => rfl
      | some pr =>
        obtain ⟨br, r'⟩ := pr
        cases br <;> rfl

theorem inFrame_iff (x : Int) : inFrame x = true ↔ (-1 ≤ x ∧ x ≤ 1) := by
  simp [inFrame]

theorem isBalanced_spec :
    ∀ t : Node K V, ∃ b t', isBalanced t = some (b, t') ∧
      eraseHeights t' = eraseHeights t ∧
      (b = true → HeightOk t') ∧
      (Balanced t → b = true) ∧
      (b = true → size t < 2 ^ 64 → Balanced t)
  | .null => ⟨true, .null, rfl, rfl, fun _ => trivial, fun _ => rfl, fun _ _ => trivial⟩
  | .mk k v h l r => by
    obtain ⟨bl, l', el, sl, hl, cl, dl⟩ := isBalanced_spec l
    obtain ⟨br, r', er, sr, hr, cr, dr⟩ := isBalanced_spec r
    rw [isBalanced_mk, el]
    cases bl with
    | false =>
      refine ⟨false, _, rfl, by simp [eraseHeights, sl], by simp, ?_, by simp⟩
      intro hb
      exact cl hb.1
    | true =>
      rw [er]
      cases br with
      | false =>
        refine ⟨false, _, rfl, by simp [eraseHeights, sl, sr], by simp, ?_, by simp⟩
        intro hb
        exact cr hb.2.1
      | true =>
        have hl' := hl rfl
        have hr' := hr rfl
        have gl : getNodeHeight l' = trueHeight l := by
          rw [heightOk_trueHeight l' hl', ← trueHeight_eraseHeights l', sl,
            trueHeight_eraseHeights]
        have gr : getNodeHeight r' = trueHeight r := by
          rw [heightOk_trueHeight r' hr', ← trueHeight_eraseHeights r', sr,
            trueHeight_eraseHeights]
        refine ⟨_, _, rfl, by simp [eraseHeights, sl, sr], ?_, ?_, ?_⟩
        · intro _
          exact ⟨hl', hr', Nat.add_comm _ _⟩
        · rintro ⟨-, -, hb⟩
          simp only [Bool.not_true, Bool.false_eq_true, if_false, Option.bind_some]
          rw [toInt8_subSizeT _ _ (by omega) (by omega), inFrame_iff]
          omega
        · intro hb hs
          simp only [Bool.not_true, Bool.false_eq_true, if_false, Option.bind_some] at hb
          simp only [size] at hs
          have bl := dl rfl (by omega)
          have br := dr rfl (by omega)
          have al : Avl l' := (avl_iff l').mpr
            ⟨(balanced_eraseHeights l').mp (sl ▸ (balanced_eraseHeights l).mpr bl), hl'⟩
          have ar : Avl r' := (avl_iff r').mpr
            ⟨(balanced_eraseHeights r').mp (sr ▸ (balanced_eraseHeights r).mpr br), hr'⟩
          have zl : size l' = size l := by
            rw [← size_eraseHeights l', sl, size_eraseHeights]
          have zr : size r' = size r := by
            rw [← size_eraseHeights r', sr, size_eraseHeights]
          have bl' := avl_height_lt l' al (by omega)
          have br' := avl_height_lt r' ar (by omega)
          rw [toInt8_subSizeT _ _ (by omega) (by omega), inFrame_iff] at hb
          refine ⟨bl, br, ?_⟩
          omega

end AVLTree


namespace Assoc

variable {K V : Type} [LinearOrder K]

theorem mem_insertSorted_iff (key : K) (value : V) (q : K) (w : V) :
    ∀ xs : List (K × V), (xs.map Prod.fst).Pairwise (· < ·) →
      ((q, w) ∈ insertSorted key value xs ↔
        (q = key ∧ w = value) ∨ (q ≠ key ∧ (q, w) ∈ xs))
  | [], _ => by simp [insertSorted]
  | (a, b) :: xs, hs => by
    simp only [List.map_cons, List.pairwise_cons] at hs
    obtain ⟨ha, hxs⟩ := hs
    have ih := mem_insertSorted_iff key value q w xs hxs
    have hgt : (q, w) ∈ xs → a < q := fun hm => ha q (List.mem_map_of_mem Prod.fst hm)
    by_cases h1 : key < a
    · simp only [insertSorted, h1, if_true, List.mem_cons, Prod.mk.injEq]
      constructor
      · rintro (h | ⟨rfl, rfl⟩ | h)
        · exact Or.inl h
        · exact Or.inr ⟨ne_of_gt h1, Or.inl ⟨rfl, rfl⟩⟩
        · exact Or.inr ⟨ne_of_gt (lt_trans h1 (hgt h)), Or.inr h⟩
      · rintro (h | ⟨-, h⟩)
        · exact Or.inl h
        · exact Or.inr h
    · by_cases h2 : key = a
      · subst h2
        simp only [insertSorted, h1, if_false, if_true, List.mem_cons, Prod.mk.injEq]
        constructor
        · rintro (h | h)
          · exact Or.inl h
          · exact Or.inr ⟨ne_of_gt (hgt h), Or.inr h⟩
        · rintro (h | ⟨hn, ⟨rfl, -⟩ | h⟩)
          · exact Or.inl h
          · exact absurd rfl hn
          · exact Or.inr h
      · have h3 : a < key := lt_of_le_of_ne (not_lt.mp h1) (fun e => h2 e.symm)
        simp only [insertSorted, h1, h2, if_false, List.mem_cons, Prod.mk.injEq, ih]
        constructor
        · rintro (⟨rfl, rfl⟩ | h | ⟨hn, h⟩)
          · exact Or.inr ⟨ne_of_lt h3, Or.inl ⟨rfl, rfl⟩⟩
          · exact Or.inl h
          · exact Or.inr ⟨hn, Or.inr h⟩
        · rintro (h | ⟨hn, h | h⟩)
          · exact Or.inr (Or.inl h)
          · exact Or.inl h
          · exact Or.inr (Or.inr ⟨hn, h⟩)

theorem mem_eraseKey_iff (key : K) (q : K) (w : V) (xs : List (K × V)) :
    (q, w) ∈ eraseKey key xs ↔ q ≠ key ∧ (q, w) ∈ xs := by
  simp [eraseKey, and_comm]

end Assoc

namespace Map

open Node Assoc AVLTree

variable {K V : Type} [LinearOrder K]

/-- The tree of `m` holds exactly the bindings of the reference map `f`. -/
theorem runFrom_refines :
    ∀ (ops : List (Op K V)) (m : Map K V) (f : K → Option V), Invariants m.tree.root →
      (∀ q v, (q, v) ∈ toList m.tree.root ↔ f q = some v) →
      ∃ m', runFrom m ops = some m' ∧ Invariants m'.tree.root ∧
        (∀ q v, (q, v) ∈ toList m'.tree.root ↔ RefMap.runFrom f ops q = some v)
  | [], m, f, hi, hr => ⟨m, rfl, hi, hr⟩
  | Op.insert k v :: ops, m, f, hi, hr => by
    obtain ⟨m1, e1, i1, t1⟩ := insert_spec m hi k v
    have r1 : ∀ q w, (q, w) ∈ toList m1.tree.root ↔ RefMap.set f k v q = some w := by
      intro q w
      rw [t1, mem_insertSorted_iff k v q w _ (sorted_of_invariants _ hi), hr]
      unfold RefMap.set
      by_cases c : q = k
      · simp [c, eq_comm]
      · simp [c]
    obtain ⟨m2, e2, i2, r2⟩ := runFrom_refines ops m1 (RefMap.set f k v) i1 r1
    exact ⟨m2, by simp [runFrom, step, e1, e2], i2, r2⟩
  | Op.erase k :: ops, m, f, hi, hr => by
    obtain ⟨m1, e1, i1, t1⟩ := erase_spec m hi k
    have r1 : ∀ q w, (q, w) ∈ toList m1.tree.root ↔ RefMap.delete f k q = some w := by
      intro q w
      rw [t1, mem_eraseKey_iff, hr]
      unfold RefMap.delete
      by_cases c : q = k
      · simp [c]
      · simp [c]
    obtain ⟨m2, e2, i2, r2⟩ := runFrom_refines ops m1 (RefMap.delete f k) i1 r1
    exact ⟨m2, by simp [runFrom, step, e1, e2], i2, r2⟩

theorem find_eq_lookup [Inhabited V] (m : Map K V) (f : K → Option V)
    (hi : Invariants m.tree.root)
    (hr : ∀ q v, (q, v) ∈ toList m.tree.root ↔ f q = some v) (q : K) :
    m.find q = RefMap.lookup f q := by
  unfold RefMap.lookup
  cases hf : f q with
  | some v => exact find_of_mem q v m.tree.root hi.1 ((hr q v).mpr hf)
  | none =>
    refine find_of_not_mem q m.tree.root ?_
    intro hm
    obtain ⟨p, hp, e⟩ := List.mem_map.mp hm
    have := (hr q p.2).mp (by rw [← e]; exact hp)
    rw [hf] at this
    cases this

end Map


namespace AVLTree

open Node Assoc

variable {K V : Type}

theorem map_fst_log (x : Option (Node K V × List (Node K V))) (f : Node K V → Node K V) :
    (x.bind (fun p => (balance (f p.1)).bind (fun t => some (t, p.2 ++ [f p.1])))).map Prod.fst
      = (x.map Prod.fst).bind (fun l => balance (f l)) := by
  cases x with
  | none => rfl
  | some p =>
    obtain ⟨l, c⟩ := p
    simp only [Option.some_bind, Option.map_some']
    cases balance (f l) <;> rfl

theorem removeMinLog_mk_mk (k : K) (v : V) (h : Nat) (lk : K) (lv : V) (lh : Nat)
    (ll lr r : Node K V) :
    removeMinLog (.mk k v h (.mk lk lv lh ll lr) r) =
      (removeMinLog (.mk lk lv lh ll lr)).bind (fun p =>
        (balance (.mk k v h p.1 r)).bind (fun t => some (t, p.2 ++ [.mk k v h p.1 r]))) := rfl

theorem removeMinLog_fst : ∀ t : Node K V, (removeMinLog t).map Prod.fst = removeMin t
  | .null => rfl
  | .mk k v h .null r => rfl
  | .mk k v h (.mk lk lv lh ll lr) r => by
    have ih := removeMinLog_fst (.mk lk lv lh ll lr)
    rw [removeMin_mk_mk, ← ih]
    exact map_fst_log (removeMinLog (.mk lk lv lh ll lr)) (fun l => .mk k v h l r)

variable [LinearOrder K]

theorem appendToLog_fst (key : K) (value : V) :
    ∀ t : Node K V, (appendToLog t key value).map Prod.fst = appendTo t key value
  | .null => rfl
  | .mk k v h l r => by
    have il := appendToLog_fst key value l
    have ir := appendToLog_fst key value r
    simp only [appendToLog, appendTo]
    split_ifs
    · rfl
    · rw [← il]
      exact map_fst_log (appendToLog l key value) (fun l => .mk k v h l r)
    · rw [← ir]
      exact map_fst_log (appendToLog r key value) (fun r => .mk k v h l r)

theorem removeLog_fst (key : K) :
    ∀ t : Node K V, (removeLog t key).map Prod.fst = remove t key
  | .null => rfl
  | .mk k v h l r => by
    have il := removeLog_fst key l
    have ir := removeLog_fst key r
    simp only [removeLog, remove]
    split_ifs
    · rw [← il]
      exact map_fst_log (removeLog l key) (fun l => .mk k v h l r)
    · rw [← ir]
      exact map_fst_log (removeLog r key) (fun r => .mk k v h l r)
    · cases r with
      | null => rfl
      | mk rk rv rh rl rr =>
        simp only
        cases findMin (.mk rk rv rh rl rr) with
        | none => rfl
        | some mn =>
          rw [← removeMinLog_fst]
          cases removeMinLog (.mk rk rv rh rl rr) with
          | none => rfl
          | some p =>
            obtain ⟨r', c⟩ := p
            cases mn with
            | null => rfl
            | mk mkey mvalue mheight ml mr =>
              simp only [Option.map_some', Option.bind_eq_bind, Option.some_bind]
              cases balance (.mk mkey mvalue mheight l r') <;> rfl

theorem invariants_children (k : K) (v : V) (h : Nat) (l r : Node K V)
    (hi : Invariants (.mk k v h l r)) : Invariants l ∧ Invariants r :=
  ⟨⟨hi.1.1, hi.2.1.1, hi.2.2.1⟩, ⟨hi.1.2.1, hi.2.1.2.1, hi.2.2.2.1⟩⟩

theorem invariants_height_diff (k : K) (v : V) (h : Nat) (l r : Node K V)
    (hi : Invariants (.mk k v h l r)) :
    h = max (getNodeHeight l) (getNodeHeight r) + 1 ∧
      getNodeHeight l ≤ getNodeHeight r + 1 ∧ getNodeHeight r ≤ getNodeHeight l + 1 := by
  obtain ⟨-, -, e, d1, d2⟩ := avl_of_invariants _ hi
  exact ⟨e, d1, d2⟩

theorem appendTo_full (t : Node K V) (hi : Invariants t) (key : K) (value : V) :
    ∃ t', appendTo t key value = some t' ∧ Invariants t' ∧
      (getNodeHeight t' = getNodeHeight t ∨ getNodeHeight t' = getNodeHeight t + 1) := by
  obtain ⟨t', e, a, tl, hh⟩ := appendTo_spec key value t (avl_of_invariants t hi) hi.1
  refine ⟨t', e, invariants_of_avl t' a ?_, hh⟩
  rw [tl]
  exact insertSorted_sorted key value _ (sorted_of_invariants t hi)

theorem remove_full (t : Node K V) (hi : Invariants t) (key : K) :
    ∃ t', remove t key = some t' ∧ Invariants t' ∧
      (getNodeHeight t' = getNodeHeight t ∨ getNodeHeight t' + 1 = getNodeHeight t) := by
  obtain ⟨t', e, a, tl, hh⟩ := remove_spec key t (avl_of_invariants t hi) hi.1
  refine ⟨t', e, invariants_of_avl t' a ?_, hh⟩
  rw [tl]
  exact eraseKey_sorted key _ (sorted_of_invariants t hi)

theorem removeMin_full (t : Node K V) (hn : t ≠ .null) (hi : Invariants t) :
    ∃ mkey mvalue mheight ml mr t',
      findMin t = some (.mk mkey mvalue mheight ml mr) ∧ removeMin t = some t' ∧
      Invariants t' ∧ toList t = (mkey, mvalue) :: toList t' ∧
      (getNodeHeight t' = getNodeHeight t ∨ getNodeHeight t' + 1 = getNodeHeight t) := by
  obtain ⟨mkey, mvalue, mheight, ml, mr, t', e1, e2, a, tl, hh⟩ :=
    removeMin_spec t hn (avl_of_invariants t hi)
  refine ⟨mkey, mvalue, mheight, ml, mr, t', e1, e2, invariants_of_avl t' a ?_, tl, hh⟩
  have s := sorted_of_invariants t hi
  rw [tl, List.map_cons, List.pairwise_cons] at s
  exact s.2

theorem balanceArg_mk (k : K) (v : V) (h : Nat) (l r : Node K V) (il : Invariants l)
    (ir : Invariants r) (h1 : getNodeHeight l ≤ getNodeHeight r + 2)
    (h2 : getNodeHeight r ≤ getNodeHeight l + 2) : BalanceArg (.mk k v h l r) := by
  refine ⟨il, ir, _, ?_, rfl, ?_, ?_⟩
  · simp [toInt8_subSizeT _ _ (show getNodeHeight r ≤ getNodeHeight l + 127 by omega)
      (show getNodeHeight l ≤ getNodeHeight r + 128 by omega)]
  · omega
  · omega

theorem removeMinLog_spec :
    ∀ t : Node K V, t ≠ .null → Invariants t →
      ∃ t' calls, removeMinLog t = some (t', calls) ∧ ∀ n ∈ calls, BalanceArg n
  | .null, hn, _ => absurd rfl hn
  | .mk k v h .null r, _, _ => ⟨r, [], rfl, by simp⟩
  | .mk k v h (.mk lk lv lh ll lr) r, _, hi => by
    obtain ⟨il, ir⟩ := invariants_children _ _ _ _ _ hi
    obtain ⟨-, d1, d2⟩ := invariants_height_diff _ _ _ _ _ hi
    obtain ⟨l', c, e, hc⟩ := removeMinLog_spec (.mk lk lv lh ll lr) (by simp) il
    obtain ⟨-, -, -, -, -, l2, -, e2, il2, -, hh⟩ := removeMin_full (.mk lk lv lh ll lr) (by simp) il
    have ef := removeMinLog_fst (.mk lk lv lh ll lr)
    rw [e, e2] at ef
    simp only [Option.map_some', Option.some.injEq] at ef
    subst ef
    obtain ⟨t, e3, -⟩ := balance_spec k v h l' r (avl_of_invariants _ il2)
      (avl_of_invariants _ ir) (by omega) (by omega)
    refine ⟨t, c ++ [.mk k v h l' r], ?_, ?_⟩
    · rw [removeMinLog_mk_mk, e]
      simp [e3]
    · intro n hn
      rcases List.mem_append.mp hn with hn | hn
      · exact hc n hn
      · rw [List.mem_singleton.mp hn]
        exact balanceArg_mk k v h l' r il2 ir (by omega) (by omega)

theorem appendToLog_spec (key : K) (value : V) :
    ∀ t : Node K V, Invariants t →
      ∃ t' calls, appendToLog t key value = some (t', calls) ∧ ∀ n ∈ calls, BalanceArg n
  | .null, _ => ⟨ctor key value, [], rfl, by simp⟩
  | .mk k v h l r, hi => by
    obtain ⟨il, ir⟩ := invariants_children _ _ _ _ _ hi
    obtain ⟨-, d1, d2⟩ := invariants_height_diff _ _ _ _ _ hi
    by_cases c1 : k = key
    · exact ⟨.mk k value h l r, [], by simp [appendToLog, c1], by simp⟩
    · by_cases c2 : key < k
      · obtain ⟨l', c, e, hc⟩ := appendToLog_spec key value l il
        obtain ⟨l2, e2, il2, hh⟩ := appendTo_full l il key value
        have ef := appendToLog_fst key value l
        rw [e, e2] at ef
        simp only [Option.map_some', Option.some.injEq] at ef
        subst ef
        obtain ⟨t, e3, -⟩ := balance_spec k v h l' r (avl_of_invariants _ il2)
          (avl_of_invariants _ ir) (by omega) (by omega)
        refine ⟨t, c ++ [.mk k v h l' r], by simp [appendToLog, c1, c2, e, e3], ?_⟩
        intro n hn
        rcases List.mem_append.mp hn with hn | hn
        · exact hc n hn
        · rw [List.mem_singleton.mp hn]
          exact balanceArg_mk k v h l' r il2 ir (by omega) (by omega)
      · obtain ⟨r', c, e, hc⟩ := appendToLog_spec key value r ir
        obtain ⟨r2, e2, ir2, hh⟩ := appendTo_full r ir key value
        have ef := appendToLog_fst key value r
        rw [e, e2] at ef
        simp only [Option.map_some', Option.some.injEq] at ef
        subst ef
        obtain ⟨t, e3, -⟩ := balance_spec k v h l r' (avl_of_invariants _ il)
          (avl_of_invariants _ ir2) (by omega) (by omega)
        refine ⟨t, c ++ [.mk k v h l r'], by simp [appendToLog, c1, c2, e, e3], ?_⟩
        intro n hn
        rcases List.mem_append.mp hn with hn | hn
        · exact hc n hn
        · rw [List.mem_singleton.mp hn]
          exact balanceArg_mk k v h l r' il ir2 (by omega) (by omega)

theorem removeLog_spec (key : K) :
    ∀ t : Node K V, Invariants t →
      ∃ t' calls, removeLog t key = some (t', calls) ∧ ∀ n ∈ calls, BalanceArg n
  | .null, _ => ⟨.null, [], rfl, by simp⟩
  | .mk k v h l r, hi => by
    obtain ⟨il, ir⟩ := invariants_children _ _ _ _ _ hi
    obtain ⟨-, d1, d2⟩ := invariants_height_diff _ _ _ _ _ hi
    by_cases c1 : key < k
    · obtain ⟨l', c, e, hc⟩ := removeLog_spec key l il
      obtain ⟨l2, e2, il2, hh⟩ := remove_full l il key
      have ef := removeLog_fst key l
      rw [e, e2] at ef
      simp only [Option.map_some', Option.some.injEq] at ef
      subst ef
      obtain ⟨t, e3, -⟩ := balance_spec k v h l' r (avl_of_invariants _ il2)
        (avl_of_invariants _ ir) (by omega) (by omega)
      refine ⟨t, c ++ [.mk k v h l' r], by simp [removeLog, c1, e, e3], ?_⟩
      intro n hn
      rcases List.mem_append.mp hn with hn | hn
      · exact hc n hn
      · rw [List.mem_singleton.mp hn]
        exact balanceArg_mk k v h l' r il2 ir (by omega) (by omega)
    · by_cases c2 : k < key
      · obtain ⟨r', c, e, hc⟩ := removeLog_spec key r ir
        obtain ⟨r2, e2, ir2, hh⟩ := remove_full r ir key
        have ef := removeLog_fst key r
        rw [e, e2] at ef
        simp only [Option.map_some', Option.some.injEq] at ef
        subst ef
        obtain ⟨t, e3, -⟩ := balance_spec k v h l r' (avl_of_invariants _ il)
          (avl_of_invariants _ ir2) (by omega) (by omega)
        refine ⟨t, c ++ [.mk k v h l r'], by simp [removeLog, c1, c2, e, e3], ?_⟩
        intro n hn
        rcases List.mem_append.mp hn with hn | hn
        · exact hc n hn
        · rw [List.mem_singleton.mp hn]
          exact balanceArg_mk k v h l r' il ir2 (by omega) (by omega)
      · cases r with
        | null => exact ⟨l, [], by simp [removeLog, c1, c2], by simp⟩
        | mk rk rv rh rl rr =>
          obtain ⟨mkey, mvalue, mheight, ml, mr, r2, e1, e2, ir2, -, hh⟩ :=
            removeMin_full (.mk rk rv rh rl rr) (by simp) ir
          obtain ⟨r', c, e, hc⟩ := removeMinLog_spec (.mk rk rv rh rl rr) (by simp) ir
          have ef := removeMinLog_fst (.mk rk rv rh rl rr)
          rw [e, e2] at ef
          simp only [Option.map_some', Option.some.injEq] at ef
          subst ef
          obtain ⟨t, e3, -⟩ := balance_spec mkey mvalue mheight l r' (avl_of_invariants _ il)
            (avl_of_invariants _ ir2) (by omega) (by omega)
          refine ⟨t, c ++ [.mk mkey mvalue mheight l r'],
            by simp [removeLog, c1, c2, e1, e, e3], ?_⟩
          intro n hn
          rcases List.mem_append.mp hn with hn | hn
          · exact hc n hn
          · rw [List.mem_singleton.mp hn]
            exact balanceArg_mk mkey mvalue mheight l r' il ir2 (by omega) (by omega)

end AVLTree

/-! ## The scenario and behaviour contracts -/

set_option maxRecDepth 8192


/-- C11. Inserting the keys 10, 5, 15, 3, 7, 12, 20 in that order into an empty `Map` builds
the tree 10 over 5 (children 3, 7) and 15 (children 12, 20); erasing 10 then returns the
tree whose root is the in-order successor 12, with left subtree 5 over 3 and 7 and right
subtree 15 with only the right child 20. Afterwards `find(10)` is the default value and
`find` of each other key is the value it was inserted with. -/
theorem two_children_deletion {V : Type} [Inhabited V] (v10 v5 v15 v3 v7 v12 v20 : V) :
    Map.run [Op.insert 10 v10, Op.insert 5 v5, Op.insert 15 v15, Op.insert 3 v3,
        Op.insert 7 v7, Op.insert 12 v12, Op.insert 20 v20] =
      some ⟨⟨Node.mk 10 v10 3
        (Node.mk 5 v5 2 (Node.mk 3 v3 1 Node.null Node.null) (Node.mk 7 v7 1 Node.null Node.null))
        (Node.mk 15 v15 2 (Node.mk 12 v12 1 Node.null Node.null)
          (Node.mk 20 v20 1 Node.null Node.null))⟩⟩ ∧
    ∃ m : Map Nat V,
      Map.run [Op.insert 10 v10, Op.insert 5 v5, Op.insert 15 v15, Op.insert 3 v3,
        Op.insert 7 v7, Op.insert 12 v12, Op.insert 20 v20, Op.erase 10] = some m ∧
      m.tree.root = Node.mk 12 v12 3
        (Node.mk 5 v5 2 (Node.mk 3 v3 1 Node.null Node.null) (Node.mk 7 v7 1 Node.null Node.null))
        (Node.mk 15 v15 2 Node.null (Node.mk 20 v20 1 Node.null Node.null)) ∧
      m.find 10 = default ∧ m.find 5 = v5 ∧ m.find 15 = v15 ∧ m.find 3 = v3 ∧
      m.find 7 = v7 ∧ m.find 12 = v12 ∧ m.find 20 = v20 :=
  ⟨rfl, _, rfl, rfl, rfl, rfl, rfl, rfl, rfl, rfl, rfl⟩

theorem rotation_scenario_unrotated :
    ¬ ∃ m : Map Nat String,
      Map.run [Op.insert 5 "a", Op.insert 3 "b", Op.insert 8 "c", Op.insert 1 "d"] = some m ∧
        ((fixHeight (Node.mk 3 "b" 1 (Node.ctor 1 "d") Node.null)).bind getBFactor = some (-2) ∨
          m.tree.root ≠ Node.mk 5 "a" 3
            (Node.mk 3 "b" 2 (Node.mk 1 "d" 1 Node.null Node.null) Node.null)
            (Node.mk 8 "c" 1 Node.null Node.null)) := by
  rintro ⟨m, hm, h⟩
  have e : Map.run [Op.insert 5 "a", Op.insert 3 "b", Op.insert 8 "c", Op.insert 1 "d"] =
      some (⟨⟨Node.mk 5 "a" 3
        (Node.mk 3 "b" 2 (Node.mk 1 "d" 1 Node.null Node.null) Node.null)
        (Node.mk 8 "c" 1 Node.null Node.null)⟩⟩ : Map Nat String) := rfl
  rw [e] at hm
  cases hm
  rcases h with h | h
  · revert h
    decide
  · exact h rfl

/-- C12 (amended). Inserting `(5,"a")`, `(3,"b")`, `(8,"c")`, `(1,"d")` in that order into an
empty `Map`: on the insertion of key 1, `balance` computes the factor `-1` at node 3 and
the factor `-1` at node 5, returns both nodes with only the cached height recomputed (no
rotation), and the final tree is the plain BST 5 over 3 (left child 1) and 8; it satisfies
the three invariants, `find(1)` is `"d"` and `find(8)` is `"c"`. -/
theorem rotation_scenario_no_rotation :
    Map.run [Op.insert 5 "a", Op.insert 3 "b", Op.insert 8 "c"] =
      some (⟨⟨Node.mk 5 "a" 2 (Node.mk 3 "b" 1 Node.null Node.null)
        (Node.mk 8 "c" 1 Node.null Node.null)⟩⟩ : Map Nat String) ∧
    (fixHeight (Node.mk 3 "b" 1 (Node.ctor 1 "d") Node.null : Node Nat String)).bind getBFactor
      = some (-1) ∧
    balance (Node.mk 3 "b" 1 (Node.ctor 1 "d") Node.null : Node Nat String) =
      some (Node.mk 3 "b" 2 (Node.ctor 1 "d") Node.null) ∧
    (fixHeight (Node.mk 5 "a" 2 (Node.mk 3 "b" 2 (Node.ctor 1 "d") Node.null)
      (Node.mk 8 "c" 1 Node.null Node.null) : Node Nat String)).bind getBFactor = some (-1) ∧
    balance (Node.mk 5 "a" 2 (Node.mk 3 "b" 2 (Node.ctor 1 "d") Node.null)
        (Node.mk 8 "c" 1 Node.null Node.null) : Node Nat String) =
      some (Node.mk 5 "a" 3 (Node.mk 3 "b" 2 (Node.ctor 1 "d") Node.null)
        (Node.mk 8 "c" 1 Node.null Node.null)) ∧
    ∃ m : Map Nat String,
      Map.run [Op.insert 5 "a", Op.insert 3 "b", Op.insert 8 "c", Op.insert 1 "d"] = some m ∧
      m.tree.root = Node.mk 5 "a" 3
        (Node.mk 3 "b" 2 (Node.mk 1 "d" 1 Node.null Node.null) Node.null)
        (Node.mk 8 "c" 1 Node.null Node.null) ∧
      Invariants m.tree.root ∧ m.find 1 = "d" ∧ m.find 8 = "c" :=
  ⟨rfl, by decide, by decide, by decide, by decide, _, rfl, rfl,
    Map.invariants_of_run [Op.insert 5 "a", Op.insert 3 "b", Op.insert 8 "c", Op.insert 1 "d"]
      _ rfl, rfl, rfl⟩

/-- C13. When the two subtrees of a node satisfy the three invariants, the node's key lies
strictly between the keys of the left and of the right subtree, and the subtree heights
differ by at most two, `balance` returns a tree that satisfies the three invariants, has
the same in-order sequence of bindings, and has height `1 + max(height(left),
height(right))` or one less; when the heights differ by at most one it returns the same
node with the same children, only the cached height recomputed. -/
theorem balance_restores_invariants {K V : Type} [LinearOrder K] (k : K) (v : V) (h : Nat)
    (l r : Node K V) (il : Invariants l) (ir : Invariants r)
    (kl : ∀ x ∈ keys l, x < k) (kr : ∀ x ∈ keys r, k < x)
    (h1 : trueHeight l ≤ trueHeight r + 2) (h2 : trueHeight r ≤ trueHeight l + 2) :
    ∃ t, balance (Node.mk k v h l r) = some t ∧ Invariants t ∧
      toList t = toList (Node.mk k v h l r) ∧
      getNodeHeight t = trueHeight t ∧
      (trueHeight t = 1 + max (trueHeight l) (trueHeight r) ∨
        trueHeight t + 1 = 1 + max (trueHeight l) (trueHeight r)) ∧
      (trueHeight l ≤ trueHeight r + 1 → trueHeight r ≤ trueHeight l + 1 →
        t = Node.mk k v (1 + max (trueHeight l) (trueHeight r)) l r) := by
  have el := heightOk_trueHeight l il.2.2
  have er := heightOk_trueHeight r ir.2.2
  obtain ⟨t, e, a, tl, ht, hs⟩ := balance_spec k v h l r (avl_of_invariants l il)
    (avl_of_invariants r ir) (by omega) (by omega)
  have so : Ordered (Node.mk k v h l r) := ⟨il.1, ir.1, kl, kr⟩
  have it : Invariants t := by
    refine invariants_of_avl t a ?_
    rw [tl]
    exact (ordered_iff_sorted (Node.mk k v h l r)).mp so
  have et := heightOk_trueHeight t it.2.2
  refine ⟨t, e, it, tl, et, ?_, ?_⟩
  · omega
  · intro d1 d2
    rw [hs (by omega) (by omega), el, er, Nat.add_comm]

theorem balance_restores_invariants_witness :
    (Invariants (Node.mk 3 30 2 Node.null (Node.mk 4 40 1 Node.null Node.null) : Node Nat Nat) ∧
      Invariants (Node.null : Node Nat Nat)) ∧
    ∃ t, balance (Node.mk 5 50 7 (Node.mk 3 30 2 Node.null (Node.mk 4 40 1 Node.null Node.null))
        Node.null : Node Nat Nat) = some t ∧ Invariants t ∧
      toList t = toList (Node.mk 5 50 7
        (Node.mk 3 30 2 Node.null (Node.mk 4 40 1 Node.null Node.null)) Node.null) ∧
      getNodeHeight t = trueHeight t ∧
      (trueHeight t = 1 + max (trueHeight (Node.mk 3 30 2 Node.null
          (Node.mk 4 40 1 Node.null Node.null) : Node Nat Nat)) (trueHeight (Node.null : Node Nat Nat)) ∨
        trueHeight t + 1 = 1 + max (trueHeight (Node.mk 3 30 2 Node.null
          (Node.mk 4 40 1 Node.null Node.null) : Node Nat Nat)) (trueHeight (Node.null : Node Nat Nat))) ∧
      (trueHeight (Node.mk 3 30 2 Node.null (Node.mk 4 40 1 Node.null Node.null) : Node Nat Nat) ≤
          trueHeight (Node.null : Node Nat Nat) + 1 →
        trueHeight (Node.null : Node Nat Nat) ≤
          trueHeight (Node.mk 3 30 2 Node.null (Node.mk 4 40 1 Node.null Node.null) :
            Node Nat Nat) + 1 →
        t = Node.mk 5 50 (1 + max (trueHeight (Node.mk 3 30 2 Node.null
          (Node.mk 4 40 1 Node.null Node.null) : Node Nat Nat)) (trueHeight (Node.null : Node Nat Nat)))
          (Node.mk 3 30 2 Node.null (Node.mk 4 40 1 Node.null Node.null)) Node.null) :=
  ⟨⟨by simp [Invariants, Ordered, Node.Balanced, HeightOk, trueHeight],
      by simp [Invariants, Ordered, Node.Balanced, HeightOk]⟩,
    balance_restores_invariants 5 50 7 _ _
      (by simp [Invariants, Ordered, Node.Balanced, HeightOk, trueHeight])
      (by simp [Invariants, Ordered, Node.Balanced, HeightOk])
      (by simp) (by simp) (by simp [trueHeight]) (by simp [trueHeight])⟩


/-- C14. For every node with a present right child, `rotateLeft` returns that child as the
new subtree root, with the node as its left child and the child's former left subtree as
the node's new right subtree; the in-order sequence of bindings is unchanged, so BST
ordering is preserved, and when the three relocated subtrees have correct cached heights
the demoted node and the new root end with correct cached heights. When the cached
heights of the three subtrees are below `2 ^ 52`, whether correct or not, the demoted node
gets `1 + max` of its new children's cached heights and then the new root gets `1 + max`
of its children's. Symmetrically for `rotateRight` on a node with a present left child. -/
theorem single_rotations {K V : Type} [LinearOrder K] (k : K) (v : V) (h : Nat) (qk : K)
    (qv : V) (qh : Nat) (a b c : Node K V) :
    (∃ h1 h2, rotateLeft (Node.mk k v h a (Node.mk qk qv qh b c)) =
        some (Node.mk qk qv h2 (Node.mk k v h1 a b) c) ∧
      toList (Node.mk qk qv h2 (Node.mk k v h1 a b) c) =
        toList (Node.mk k v h a (Node.mk qk qv qh b c)) ∧
      (Ordered (Node.mk k v h a (Node.mk qk qv qh b c)) →
        Ordered (Node.mk qk qv h2 (Node.mk k v h1 a b) c)) ∧
      (HeightOk a → HeightOk b → HeightOk c →
        HeightOk (Node.mk qk qv h2 (Node.mk k v h1 a b) c) ∧
        h1 = trueHeight (Node.mk k v h1 a b) ∧
        h2 = trueHeight (Node.mk qk qv h2 (Node.mk k v h1 a b) c)) ∧
      (getNodeHeight a < 2 ^ 52 → getNodeHeight b < 2 ^ 52 → getNodeHeight c < 2 ^ 52 →
        h1 = 1 + max (getNodeHeight a) (getNodeHeight b) ∧
        h2 = 1 + max h1 (getNodeHeight c))) ∧
    (∃ h1 h2, rotateRight (Node.mk k v h (Node.mk qk qv qh a b) c) =
        some (Node.mk qk qv h2 a (Node.mk k v h1 b c)) ∧
      toList (Node.mk qk qv h2 a (Node.mk k v h1 b c)) =
        toList (Node.mk k v h (Node.mk qk qv qh a b) c) ∧
      (Ordered (Node.mk k v h (Node.mk qk qv qh a b) c) →
        Ordered (Node.mk qk qv h2 a (Node.mk k v h1 b c))) ∧
      (HeightOk a → HeightOk b → HeightOk c →
        HeightOk (Node.mk qk qv h2 a (Node.mk k v h1 b c)) ∧
        h1 = trueHeight (Node.mk k v h1 b c) ∧
        h2 = trueHeight (Node.mk qk qv h2 a (Node.mk k v h1 b c))) ∧
      (getNodeHeight a < 2 ^ 52 → getNodeHeight b < 2 ^ 52 → getNodeHeight c < 2 ^ 52 →
        h1 = 1 + max (getNodeHeight b) (getNodeHeight c) ∧
        h2 = 1 + max (getNodeHeight a) h1)) := by
  constructor
  · refine ⟨_, _, rfl, by simp, ?_, ?_, fun _ _ _ => ⟨Nat.add_comm _ _, Nat.add_comm _ _⟩⟩
    · intro ho
      rw [ordered_iff_sorted] at ho ⊢
      simpa [keys] using ho
    · intro ha hb hc
      have hn : HeightOk (Node.mk k v (max (getNodeHeight a) (getNodeHeight b) + 1) a b) :=
        ⟨ha, hb, Nat.add_comm _ _⟩
      have hq : HeightOk (Node.mk qk qv
          (max (getNodeHeight (Node.mk k v (max (getNodeHeight a) (getNodeHeight b) + 1) a b))
            (getNodeHeight c) + 1)
          (Node.mk k v (max (getNodeHeight a) (getNodeHeight b) + 1) a b) c) :=
        ⟨hn, hc, Nat.add_comm _ _⟩
      exact ⟨hq, heightOk_trueHeight _ hn, heightOk_trueHeight _ hq⟩
  · refine ⟨_, _, rfl, by simp, ?_, ?_, fun _ _ _ => ⟨Nat.add_comm _ _, Nat.add_comm _ _⟩⟩
    · intro ho
      rw [ordered_iff_sorted] at ho ⊢
      simpa [keys] using ho
    · intro ha hb hc
      have hn : HeightOk (Node.mk k v (max (getNodeHeight b) (getNodeHeight c) + 1) b c) :=
        ⟨hb, hc, Nat.add_comm _ _⟩
      have hq : HeightOk (Node.mk qk qv
          (max (getNodeHeight a)
            (getNodeHeight (Node.mk k v (max (getNodeHeight b) (getNodeHeight c) + 1) b c)) + 1)
          a (Node.mk k v (max (getNodeHeight b) (getNodeHeight c) + 1) b c)) :=
        ⟨ha, hn, Nat.add_comm _ _⟩
      exact ⟨hq, heightOk_trueHeight _ hn, heightOk_trueHeight _ hq⟩

theorem single_rotations_witness :
    ∃ h1 h2,
      rotateLeft (Node.mk 5 50 9 (Node.mk 3 30 1 Node.null Node.null)
          (Node.mk 8 80 9 (Node.mk 7 70 1 Node.null Node.null)
            (Node.mk 9 90 1 Node.null Node.null)) : Node Nat Nat) =
        some (Node.mk 8 80 h2
          (Node.mk 5 50 h1 (Node.mk 3 30 1 Node.null Node.null)
            (Node.mk 7 70 1 Node.null Node.null))
          (Node.mk 9 90 1 Node.null Node.null)) ∧
      h1 = 2 ∧ h2 = 3 := by
  obtain ⟨h1, h2, e, -, -, -, hb⟩ :=
    (single_rotations 5 50 9 8 80 9 (Node.mk 3 30 1 Node.null Node.null : Node Nat Nat)
      (Node.mk 7 70 1 Node.null Node.null) (Node.mk 9 90 1 Node.null Node.null)).1
  obtain ⟨e1, e2⟩ := hb (by decide) (by decide) (by decide)
  subst e1
  subst e2
  exact ⟨_, _, e, by decide, by decide⟩

/-- C15. On every tree that satisfies the three invariants, `insert(k, v)` of a key `k`
already stored (at any depth) returns the tree with identical shape, identical keys at
identical positions and identical cached heights, in which only the value of the node
with key `k` has changed, to `v`: no call of `balance` on the path rotates. -/
theorem overwrite_in_place {K V : Type} [LinearOrder K] (m : Map K V)
    (hi : Invariants m.tree.root) (k : K) (v : V) (hk : k ∈ keys m.tree.root) :
    m.insert k v = some ⟨⟨replaceValue k v m.tree.root⟩⟩ := by
  have a := avl_of_invariants _ hi
  have e := appendTo_present k v m.tree.root a hi.1 hk
  unfold Map.insert
  rw [insert_eq, e]
  rfl

theorem overwrite_in_place_witness :
    (Invariants (Node.mk 5 1 2 (Node.mk 3 2 1 Node.null Node.null) Node.null : Node Nat Nat) ∧
      3 ∈ keys (Node.mk 5 1 2 (Node.mk 3 2 1 Node.null Node.null) Node.null : Node Nat Nat)) ∧
    (⟨⟨Node.mk 5 1 2 (Node.mk 3 2 1 Node.null Node.null) Node.null⟩⟩ : Map Nat Nat).insert 3 9 =
      some ⟨⟨replaceValue 3 9 (Node.mk 5 1 2 (Node.mk 3 2 1 Node.null Node.null) Node.null)⟩⟩ :=
  ⟨⟨by simp [Invariants, Ordered, Node.Balanced, HeightOk, trueHeight], by decide⟩,
    overwrite_in_place ⟨⟨Node.mk 5 1 2 (Node.mk 3 2 1 Node.null Node.null) Node.null⟩⟩
      (by simp [Invariants, Ordered, Node.Balanced, HeightOk, trueHeight]) 3 9 (by decide)⟩


/-- C16. For every tree with fewer than `2 ^ 64` nodes (every tree of a 64-bit address
space), whatever values its cached height fields hold, `isBalanced` returns, and it
returns `true` if and only if at every node the true heights of the left and right
subtrees differ by at most one. -/
theorem validator_sound_complete {K V : Type} (t : Node K V) (hs : size t < 2 ^ 64) :
    ∃ b t', isBalanced t = some (b, t') ∧ (b = true ↔ Node.Balanced t) := by
  obtain ⟨b, t', e, -, -, c, d⟩ := isBalanced_spec t
  exact ⟨b, t', e, fun hb => d hb hs, c⟩

theorem validator_sound_complete_witness :
    size (Node.mk 5 0 7 (Node.mk 3 0 9 Node.null Node.null) Node.null : Node Nat Nat) < 2 ^ 64 ∧
    ∃ b t', isBalanced (Node.mk 5 0 7 (Node.mk 3 0 9 Node.null Node.null) Node.null :
        Node Nat Nat) = some (b, t') ∧
      (b = true ↔
        Node.Balanced (Node.mk 5 0 7 (Node.mk 3 0 9 Node.null Node.null) Node.null :
          Node Nat Nat)) :=
  ⟨by decide, validator_sound_complete _ (by decide)⟩

theorem validator_leaves_stale_height :
    isBalanced (Node.mk 4 0 7 (Node.mk 3 0 3 (Node.mk 2 0 2 (Node.mk 1 0 1 Node.null Node.null)
        Node.null) Node.null) Node.null : Node Nat Nat) =
      some (false, Node.mk 4 0 7 (Node.mk 3 0 3 (Node.mk 2 0 2
        (Node.mk 1 0 1 Node.null Node.null) Node.null) Node.null) Node.null) ∧
    ¬ HeightOk (Node.mk 4 0 7 (Node.mk 3 0 3 (Node.mk 2 0 2 (Node.mk 1 0 1 Node.null Node.null)
        Node.null) Node.null) Node.null : Node Nat Nat) := by
  refine ⟨by decide, ?_⟩
  simp [HeightOk]

/-- C17 (amended). For every tree with arbitrary cached height fields, `isBalanced`
returns and changes nothing but cached heights; when it returns `true`, every node of the
tree it leaves has cached height `1 + max(height(left), height(right))`, equal to the true
height of its subtree. -/
theorem validator_repairs_heights_when_true {K V : Type} (t : Node K V) :
    ∃ b t', isBalanced t = some (b, t') ∧ eraseHeights t' = eraseHeights t ∧
      (b = true → HeightOk t' ∧ HeightsExact t') := by
  obtain ⟨b, t', e, s, h, -, -⟩ := isBalanced_spec t
  exact ⟨b, t', e, s, fun hb => ⟨h hb, heightOk_heightsExact t' (h hb)⟩⟩

theorem getBFactor_wraps :
    getBFactor (Node.mk 5 0 7 (Node.mk 3 0 200 Node.null Node.null) Node.null : Node Nat Nat)
      = some 56 ∧
    ((getNodeHeight (Node.null : Node Nat Nat) : Int) -
      (getNodeHeight (Node.mk 3 0 200 Node.null Node.null : Node Nat Nat) : Int)) = -200 := by
  decide

/-- C18 (amended). For every node and every pair of cached child heights (`0` for an
absent child) whose difference `height(right) - height(left)` lies between `-128` and
`127`, `getBFactor` returns that difference as a signed integer, although it is computed
by unsigned subtraction and narrowed to `int8_t`, and with `forceHeightFix` clear it leaves
the node as it is; with `forceHeightFix` set and both cached child heights below `2 ^ 53`
it first sets the node's own height to `1 + max(height(left), height(right))` and returns
the same difference. -/
theorem balance_factor_arithmetic {K V : Type} (k : K) (v : V) (h : Nat) (l r : Node K V)
    (h1 : getNodeHeight r ≤ getNodeHeight l + 127)
    (h2 : getNodeHeight l ≤ getNodeHeight r + 128) :
    getBFactor (Node.mk k v h l r) =
      some ((getNodeHeight r : Int) - (getNodeHeight l : Int)) ∧
    getBFactorForce (Node.mk k v h l r) false =
      some (Node.mk k v h l r, (getNodeHeight r : Int) - (getNodeHeight l : Int)) ∧
    (getNodeHeight l < 2 ^ 53 → getNodeHeight r < 2 ^ 53 →
      getBFactorForce (Node.mk k v h l r) true =
        some (Node.mk k v (1 + max (getNodeHeight l) (getNodeHeight r)) l r,
          (getNodeHeight r : Int) - (getNodeHeight l : Int))) := by
  have e := toInt8_subSizeT (getNodeHeight r) (getNodeHeight l) h1 h2
  refine ⟨by simp [e], ?_, ?_⟩
  · simp [getBFactorForce, e]
  · intro _ _
    simp [getBFactorForce, e, Nat.add_comm]

theorem balance_factor_arithmetic_witness :
    ((getNodeHeight (Node.null : Node Nat Nat) ≤
        getNodeHeight (Node.mk 3 0 2 Node.null Node.null : Node Nat Nat) + 127 ∧
      getNodeHeight (Node.mk 3 0 2 Node.null Node.null : Node Nat Nat) ≤
        getNodeHeight (Node.null : Node Nat Nat) + 128) ∧
      getNodeHeight (Node.mk 3 0 2 Node.null Node.null : Node Nat Nat) < 2 ^ 53 ∧
      getNodeHeight (Node.null : Node Nat Nat) < 2 ^ 53) ∧
    getBFactor (Node.mk 5 0 7 (Node.mk 3 0 2 Node.null Node.null) Node.null : Node Nat Nat) =
      some ((getNodeHeight (Node.null : Node Nat Nat) : Int) -
        (getNodeHeight (Node.mk 3 0 2 Node.null Node.null : Node Nat Nat) : Int)) ∧
    getBFactorForce (Node.mk 5 0 7 (Node.mk 3 0 2 Node.null Node.null) Node.null : Node Nat Nat)
        false =
      some (Node.mk 5 0 7 (Node.mk 3 0 2 Node.null Node.null) Node.null,
        (getNodeHeight (Node.null : Node Nat Nat) : Int) -
          (getNodeHeight (Node.mk 3 0 2 Node.null Node.null : Node Nat Nat) : Int)) ∧
    getBFactorForce (Node.mk 5 0 7 (Node.mk 3 0 2 Node.null Node.null) Node.null : Node Nat Nat)
        true =
      some (Node.mk 5 0 (1 + max (getNodeHeight (Node.mk 3 0 2 Node.null Node.null : Node Nat Nat))
          (getNodeHeight (Node.null : Node Nat Nat))) (Node.mk 3 0 2 Node.null Node.null) Node.null,
        (getNodeHeight (Node.null : Node Nat Nat) : Int) -
          (getNodeHeight (Node.mk 3 0 2 Node.null Node.null : Node Nat Nat) : Int)) :=
  ⟨by decide,
    (balance_factor_arithmetic 5 0 7 _ _ (by decide) (by decide)).1,
    (balance_factor_arithmetic 5 0 7 _ _ (by decide) (by decide)).2.1,
    (balance_factor_arithmetic 5 0 7 _ _ (by decide) (by decide)).2.2 (by decide) (by decide)⟩


/-- C19. For every finite sequence of `insert`/`erase` calls applied to an initially empty
`Map`, the calls return and the in-order traversal of the tree is exactly the list of the
bindings of the reference map obtained by the same calls (`insert` sets `k` to `v`,
`erase` deletes `k`), in strictly increasing key order; consequently `find(q)` is the
reference lookup of `q` (the default value when `q` is unbound), and an `insert` or
`erase` of `k` does not change `find(q)` for `q` different from `k`. -/
theorem refines_finite_map {K V : Type} [LinearOrder K] [Inhabited V] (ops : List (Op K V)) :
    ∃ m, Map.run ops = some m ∧
      (keys m.tree.root).Pairwise (· < ·) ∧
      (∀ q v, (q, v) ∈ toList m.tree.root ↔ RefMap.run ops q = some v) ∧
      (∀ q, m.find q = RefMap.lookup (RefMap.run ops) q) ∧
      (∀ k v q, q ≠ k → ∃ m', m.insert k v = some m' ∧ m'.find q = m.find q) ∧
      (∀ k q, q ≠ k → ∃ m', m.erase k = some m' ∧ m'.find q = m.find q) := by
  obtain ⟨m, e, i, r⟩ := Map.runFrom_refines ops Map.empty RefMap.empty Map.empty_invariants
    (fun q v => by simp [Map.empty, RefMap.empty])
  refine ⟨m, e, sorted_of_invariants _ i, r, Map.find_eq_lookup m _ i r, ?_, ?_⟩
  · intro k v q hq
    obtain ⟨m', e', i', r'⟩ := Map.runFrom_refines [Op.insert k v] m _ i r
    refine ⟨m', ?_, ?_⟩
    · simpa [Map.runFrom, Map.step] using e'
    · rw [Map.find_eq_lookup m' _ i' r', Map.find_eq_lookup m _ i r]
      simp [RefMap.lookup, RefMap.runFrom, RefMap.step, RefMap.set, hq]
  · intro k q hq
    obtain ⟨m', e', i', r'⟩ := Map.runFrom_refines [Op.erase k] m _ i r
    refine ⟨m', ?_, ?_⟩
    · simpa [Map.runFrom, Map.step] using e'
    · rw [Map.find_eq_lookup m' _ i' r', Map.find_eq_lookup m _ i r]
      simp [RefMap.lookup, RefMap.runFrom, RefMap.step, RefMap.delete, hq]

/-- C20. During `insert` or `erase` on a tree that satisfies the three invariants, every
call of `balance` (from `appendTo`, `removeMin` and `remove`, the call on the spliced-in
successor included) receives a present node whose two subtrees satisfy the invariants and
whose recomputed balance factor is the true height difference and lies in `-2 .. 2`, so a
factor of magnitude three or more never reaches the `== 2` and `== -2` tests; the
operation returns a tree that satisfies the invariants, of height `h` or `h + 1` after
`insert` and `h` or `h - 1` after `erase`. -/
theorem balance_calls_in_range {K V : Type} [LinearOrder K] (t : Node K V)
    (hi : Invariants t) (key : K) (value : V) :
    (∃ t' calls, appendToLog t key value = some (t', calls) ∧
      appendTo t key value = some t' ∧ (∀ n ∈ calls, BalanceArg n) ∧ Invariants t' ∧
      (trueHeight t' = trueHeight t ∨ trueHeight t' = trueHeight t + 1)) ∧
    (∃ t' calls, removeLog t key = some (t', calls) ∧
      remove t key = some t' ∧ (∀ n ∈ calls, BalanceArg n) ∧ Invariants t' ∧
      (trueHeight t' = trueHeight t ∨ trueHeight t' + 1 = trueHeight t)) := by
  have et := heightOk_trueHeight t hi.2.2
  constructor
  · obtain ⟨t', calls, e, hc⟩ := appendToLog_spec key value t hi
    obtain ⟨t2, e2, i2, hh⟩ := appendTo_full t hi key value
    have ef := appendToLog_fst key value t
    rw [e, e2] at ef
    simp only [Option.map_some', Option.some.injEq] at ef
    subst ef
    have e' := heightOk_trueHeight _ i2.2.2
    exact ⟨_, calls, e, e2, hc, i2, by omega⟩
  · obtain ⟨t', calls, e, hc⟩ := removeLog_spec key t hi
    obtain ⟨t2, e2, i2, hh⟩ := remove_full t hi key
    have ef := removeLog_fst key t
    rw [e, e2] at ef
    simp only [Option.map_some', Option.some.injEq] at ef
    subst ef
    have e' := heightOk_trueHeight _ i2.2.2
    exact ⟨_, calls, e, e2, hc, i2, by omega⟩

theorem balance_calls_in_range_witness :
    Invariants (Node.mk 5 1 2 (Node.mk 3 2 1 Node.null Node.null) Node.null : Node Nat Nat) ∧
    ((∃ t' calls,
        appendToLog (Node.mk 5 1 2 (Node.mk 3 2 1 Node.null Node.null) Node.null : Node Nat Nat)
          1 4 = some (t', calls) ∧
        appendTo (Node.mk 5 1 2 (Node.mk 3 2 1 Node.null Node.null) Node.null : Node Nat Nat)
          1 4 = some t' ∧
        (∀ n ∈ calls, BalanceArg n) ∧ Invariants t' ∧
        (trueHeight t' = trueHeight (Node.mk 5 1 2 (Node.mk 3 2 1 Node.null Node.null)
            Node.null : Node Nat Nat) ∨
          trueHeight t' = trueHeight (Node.mk 5 1 2 (Node.mk 3 2 1 Node.null Node.null)
            Node.null : Node Nat Nat) + 1)) ∧
      (∃ t' calls,
        removeLog (Node.mk 5 1 2 (Node.mk 3 2 1 Node.null Node.null) Node.null : Node Nat Nat)
          1 = some (t', calls) ∧
        remove (Node.mk 5 1 2 (Node.mk 3 2 1 Node.null Node.null) Node.null : Node Nat Nat)
          1 = some t' ∧
        (∀ n ∈ calls, BalanceArg n) ∧ Invariants t' ∧
        (trueHeight t' = trueHeight (Node.mk 5 1 2 (Node.mk 3 2 1 Node.null Node.null)
            Node.null : Node Nat Nat) ∨
          trueHeight t' + 1 = trueHeight (Node.mk 5 1 2 (Node.mk 3 2 1 Node.null Node.null)
            Node.null : Node Nat Nat)))) :=
  ⟨by simp [Invariants, Ordered, Node.Balanced, HeightOk, trueHeight],
    balance_calls_in_range _
      (by simp [Invariants, Ordered, Node.Balanced, HeightOk, trueHeight]) 1 4⟩
